import Mathlib

set_option maxRecDepth 8192

/-!
Verification development for the regolith-loot-tabler filter.

The JavaScript source (loot_tabler/main.js) is shallowly embedded below.
JavaScript strings are modelled as Lean strings, JSON configuration objects
as Lean structures with Option fields for possibly-absent keys, and
JavaScript plain objects used as ordered string-keyed maps as association
lists (List (String × _)) in insertion order.  Property assignment on such
an object is objAssign (replace in place when the key exists, append
otherwise), property deletion is objDelete, and property lookup is objGet.
The binary NBT codec used by the filter lives in the prismarine-nbt
dependency; it is modelled from the specification (little-endian,
uncompressed tagged tree).
-/

/- ------------------------------------------------------------------ -/
/- String helpers mirroring the path handling in main.js              -/
/- ------------------------------------------------------------------ -/

/-- Model of the JavaScript String.prototype.toLowerCase restricted to the
ASCII range, as used for filename stems and override keys. -/
def jsToLower (s : String) : String :=
  String.mk (s.toList.map Char.toLower)

/-- Characters removed by the JavaScript String.prototype.trim. -/
def isJsSpace (c : Char) : Bool :=
  c.toNat = 9 || c.toNat = 10 || c.toNat = 11 || c.toNat = 12 || c.toNat = 13 ||
  c.toNat = 32 || c.toNat = 160 || c.toNat = 5760 ||
  (8192 ≤ c.toNat && c.toNat ≤ 8202) || c.toNat = 8232 || c.toNat = 8233 ||
  c.toNat = 8239 || c.toNat = 8287 || c.toNat = 12288 || c.toNat = 65279

/-- Model of the JavaScript String.prototype.trim. -/
def jsTrim (s : String) : String :=
  String.mk (((s.toList.dropWhile isJsSpace).reverse.dropWhile isJsSpace).reverse)

/-- Model of the JavaScript startsWith on strings. -/
def strStarts (pre s : String) : Bool :=
  pre.toList.isPrefixOf s.toList

/-- normRel from main.js: backslashes become forward slashes, leading and
trailing slash runs are stripped, and one leading dot-slash is dropped. -/
def normRel (p : String) : String :=
  let s := p.toList.map (fun c => if c = '\\' then '/' else c)
  let s1 := ((s.dropWhile (fun c => c = '/')).reverse.dropWhile (fun c => c = '/')).reverse
  let s2 := if s1.take 2 = ['.', '/'] then s1.drop 2 else s1
  String.mk s2

/-- Model of the NodeJS posix path.dirname, used by pickFolderRule on the
already slash-normalized project-relative path. -/
def dirname (p : String) : String :=
  if p = "" then "." else
  let cs := p.toList
  let hasRoot := cs.head? = some '/'
  let r1 := (cs.reverse.dropLast).dropWhile (fun c => c = '/')
  let r2 := r1.dropWhile (fun c => c ≠ '/')
  if r2.isEmpty then (if hasRoot then "/" else ".")
  else if hasRoot ∧ r2.length = 1 then "//"
  else String.mk (cs.take r2.length)

/-- Model of the NodeJS posix path.basename. -/
def basename (p : String) : String :=
  let r1 := p.toList.reverse.dropWhile (fun c => c = '/')
  String.mk ((r1.takeWhile (fun c => c ≠ '/')).reverse)

/-- getStructureBaseName from main.js: lower-cased basename with a final
.mcstructure extension stripped. -/
def getStructureBaseName (filePath : String) : String :=
  let cs := (jsToLower (basename filePath)).toList
  if (".mcstructure".toList).isSuffixOf cs then
    String.mk (cs.take (cs.length - 12))
  else String.mk cs

/- ------------------------------------------------------------------ -/
/- Configuration data model (JSON loot config)                        -/
/- ------------------------------------------------------------------ -/

/-- Entry of a tile map (tile_entities or containers) in the loot config:
an optional loot table path and an optional explicit per-tile seed. -/
structure TileRule where
  loot_table : Option String
  seed : Option Int
deriving DecidableEq

/-- Scope object holding a tile map under tile_entities or containers
(the config global entry). -/
structure ScopeObj where
  tile_entities : Option (List (String × TileRule))
  containers : Option (List (String × TileRule))
deriving DecidableEq

/-- Folder rule: own tile map plus structure_defaults (tile id to loot
path) and structure_overrides (filename-prefix key to tile id to loot
path). -/
structure FolderRule where
  tile_entities : Option (List (String × TileRule))
  containers : Option (List (String × TileRule))
  structure_defaults : Option (List (String × String))
  structure_overrides : Option (List (String × List (String × String)))
deriving DecidableEq

/-- The defaults block of the loot config. -/
structure ConfigDefaults where
  seed : Option Int
  override_existing : Bool
deriving DecidableEq

/-- The loot configuration root. -/
structure Config where
  global : Option ScopeObj
  folders : List (String × FolderRule)
  tile_entities : Option (List (String × TileRule))
  containers : Option (List (String × TileRule))
  defaults : Option ConfigDefaults
deriving DecidableEq

/- ------------------------------------------------------------------ -/
/- Ordered string-keyed object operations                             -/
/- ------------------------------------------------------------------ -/

/-- Property lookup on a JavaScript object modelled as an ordered
association list. -/
def objGet {α : Type} : List (String × α) → String → Option α
  | [], _ => none
  | (k', v) :: rest, k => if k' = k then some v else objGet rest k

/-- Property assignment: replace in place when the key already exists,
append otherwise. -/
def objAssign {α : Type} : List (String × α) → String → α → List (String × α)
  | [], k, v => [(k, v)]
  | (k', v') :: rest, k, v =>
    if k' = k then (k', v) :: rest else (k', v') :: objAssign rest k v

/-- Property deletion. -/
def objDelete {α : Type} : List (String × α) → String → List (String × α)
  | [], _ => []
  | (k', v') :: rest, k =>
    if k' = k then objDelete rest k else (k', v') :: objDelete rest k

/- ------------------------------------------------------------------ -/
/- Path scope resolver: pickFolderRule and pickStructureOverride      -/
/- ------------------------------------------------------------------ -/

/-- Longest-scoring-key selection shared by pickFolderRule and
pickStructureOverride.  The accumulator mirrors bestKey and bestLen in
main.js; a strictly greater score replaces the current best, so the first
key wins among equal scores, and any score beats an empty accumulator. -/
def selectBest {α : Type} (score : String → Option Nat) :
    List (String × α) → Option (Nat × String × α) → Option (Nat × String × α)
  | [], best => best
  | (k, v) :: rest, best =>
    match score k with
    | none => selectBest score rest best
    | some n =>
      match best with
      | none => selectBest score rest (some (n, k, v))
      | some b =>
        if b.1 < n then selectBest score rest (some (n, k, v))
        else selectBest score rest best

/-- Matching test of pickFolderRule: the normalized key is nonempty and the
directory equals it or extends it across a slash boundary. -/
def folderKeyMatches (key relDir : String) : Bool :=
  normRel key ≠ "" && (relDir == normRel key || strStarts (normRel key ++ "/") relDir)

/-- Score of one folder key against the directory: the length of the
normalized key when it matches. -/
def folderScore (relDir key : String) : Option Nat :=
  if folderKeyMatches key relDir then some (normRel key).length else none

/-- pickFolderRule from main.js: the rule of the longest matching folder
key, or none. -/
def pickFolderRule (config : Config) (relToStructures : String) : Option FolderRule :=
  let relDir := normRel (dirname relToStructures)
  match selectBest (folderScore relDir) config.folders none with
  | some b => some b.2.2
  | none => none

/-- Matching test of pickStructureOverride: the stem equals the lower-cased
key or starts with it followed by an underscore. -/
def overrideKeyMatches (key stem : String) : Bool :=
  stem == jsToLower key || strStarts (jsToLower key ++ "_") stem

/-- Score of one override key against the stem: the length of the
lower-cased key when it matches. -/
def overrideScore (stem key : String) : Option Nat :=
  if overrideKeyMatches key stem then some (jsToLower key).length else none

/-- pickStructureOverride from main.js: the override map of the longest
matching filename-prefix key, or none. -/
def pickStructureOverride (folderRule : Option FolderRule) (structureBaseName : String) :
    Option (List (String × String)) :=
  match folderRule with
  | none => none
  | some fr =>
    match fr.structure_overrides with
    | none => none
    | some ovs =>
      match selectBest (overrideScore structureBaseName) ovs none with
      | some b => some b.2.2
      | none => none

/- ------------------------------------------------------------------ -/
/- Rule compositor: buildPerFileTileConfig and the legacy fallback    -/
/- ------------------------------------------------------------------ -/

/-- getTileMap from main.js: the tile_entities map when present (even when
empty), else the containers map when present, else the empty map. -/
def getTileMap (te containers : Option (List (String × TileRule))) :
    List (String × TileRule) :=
  match te with
  | some m => m
  | none =>
    match containers with
    | some m => m
    | none => []

/-- Tile map of the optional config.global scope. -/
def scopeTileMap (s : Option ScopeObj) : List (String × TileRule) :=
  match s with
  | none => []
  | some o => getTileMap o.tile_entities o.containers

/-- Tile map of the optional matched folder rule. -/
def folderTileMap (fr : Option FolderRule) : List (String × TileRule) :=
  match fr with
  | none => []
  | some r => getTileMap r.tile_entities r.containers

/-- Assign every entry of a layer onto an object, in order. -/
def assignAll {α : Type} (out : List (String × α)) :
    List (String × α) → List (String × α)
  | [] => out
  | (k, v) :: rest => assignAll (objAssign out k v) rest

/-- Assign every entry of a loot-path layer onto the tile config, wrapping
each non-falsy loot path as a loot-table-only rule (the structure_defaults
and structure_overrides loops of buildPerFileTileConfig). -/
def assignWrapped (out : List (String × TileRule)) :
    List (String × String) → List (String × TileRule)
  | [] => out
  | (k, lt) :: rest =>
    if lt = "" then assignWrapped out rest
    else assignWrapped (objAssign out k ⟨some lt, none⟩) rest

/-- buildPerFileTileConfig from main.js: overlay of the global tile map,
the folder tile map, the wrapped structure_defaults and the wrapped
matched structure override, later layers assigning over earlier ones. -/
def buildPerFileTileConfig (config : Config) (folderRule : Option FolderRule)
    (filePath : String) : List (String × TileRule) :=
  let out1 := assignAll [] (scopeTileMap config.global)
  let out2 := assignAll out1 (folderTileMap folderRule)
  let out3 :=
    match folderRule with
    | some fr =>
      match fr.structure_defaults with
      | some d => assignWrapped out2 d
      | none => out2
    | none => out2
  match pickStructureOverride folderRule (getStructureBaseName filePath) with
  | some o => assignWrapped out3 o
  | none => out3

/-- Effective tile config of processFile: buildPerFileTileConfig, with the
legacy top-level tile map copied in when the composited map is empty and
the legacy map is not. -/
def effectiveTileConfig (config : Config) (folderRule : Option FolderRule)
    (filePath : String) : List (String × TileRule) :=
  let tc := buildPerFileTileConfig config folderRule filePath
  let legacy := getTileMap config.tile_entities config.containers
  if tc = [] ∧ legacy ≠ [] then assignAll tc legacy else tc

/-- First-some choice on options, used to express layered lookups. -/
def orO {α : Type} (a b : Option α) : Option α :=
  match a with
  | some v => some v
  | none => b

/-- Lookup in a loot-path layer with wrapping: a present non-falsy loot
path yields a loot-table-only rule. -/
def wrapGet (m : List (String × String)) (t : String) : Option TileRule :=
  match objGet m t with
  | some lt => if lt = "" then none else some ⟨some lt, none⟩
  | none => none

/-- Specification-side overlay lookup: the four layers of section 4.2 in
priority order (matched override, then structure_defaults, then folder
tile map, then global tile map). -/
def overlayLookup (config : Config) (folderRule : Option FolderRule)
    (filePath : String) (t : String) : Option TileRule :=
  let ovr :=
    match pickStructureOverride folderRule (getStructureBaseName filePath) with
    | some m => wrapGet m t
    | none => none
  let dfl :=
    match folderRule with
    | some fr =>
      match fr.structure_defaults with
      | some d => wrapGet d t
      | none => none
    | none => none
  orO ovr (orO dfl (orO (objGet (folderTileMap folderRule) t)
    (objGet (scopeTileMap config.global) t)))

/- ------------------------------------------------------------------ -/
/- Structure tree: tagged binary node model                           -/
/- ------------------------------------------------------------------ -/

/-- Tagged tree node of the little-endian uncompressed binary format.
Numeric leaves carry their raw unsigned value except long, which carries
the signed value the mutation engine writes; float and double carry their
exact bytes so re-encoding is lossless. -/
inductive Tag where
  | byte (v : Nat)
  | short (v : Nat)
  | int (v : Nat)
  | long (v : Int)
  | float (raw : List Nat)
  | double (raw : List Nat)
  | byteArray (raw : List Nat)
  | string (s : String)
  | list (elemType : Nat) (elems : List Tag)
  | compound (entries : List (String × Tag))
  | intArray (vals : List Nat)
  | longArray (vals : List Nat)

/-- Numeric id of each tag kind in the binary format. -/
def tagId : Tag → Nat
  | .byte _ => 1
  | .short _ => 2
  | .int _ => 3
  | .long _ => 4
  | .float _ => 5
  | .double _ => 6
  | .byteArray _ => 7
  | .string _ => 8
  | .list _ _ => 9
  | .compound _ => 10
  | .intArray _ => 11
  | .longArray _ => 12

/- ------------------------------------------------------------------ -/
/- Mutation engine                                                    -/
/- ------------------------------------------------------------------ -/

/-- Policy flags of one processFile run: the onlyUnassigned option plus
override_existing and the default seed from the config defaults block. -/
structure MutOpts where
  onlyUnassigned : Bool
  overrideExisting : Bool
  defaultSeed : Option Int

/-- Already-assigned test of processFile: the existing LootTable tag is a
string whose value is non-empty after trimming. -/
def hasLootAlready (bed : List (String × Tag)) : Bool :=
  match objGet bed "LootTable" with
  | some (Tag.string s) => jsTrim s != ""
  | _ => false

/-- Write eligibility of processFile: under onlyUnassigned only unassigned
records are written; otherwise assigned records are written only when
override_existing is set. -/
def writeAllowed (o : MutOpts) (bed : List (String × Tag)) : Bool :=
  if o.onlyUnassigned then !hasLootAlready bed
  else !hasLootAlready bed || o.overrideExisting

/-- Seed resolution of processFile: the explicit per-tile seed when set,
else the config default seed. -/
def resolveSeed (rule : TileRule) (o : MutOpts) : Option Int :=
  match rule.seed with
  | some s => some s
  | none => o.defaultSeed

/-- Eligible write of processFile: set LootTable to the loot path, then set
LootTableSeed as a long when a seed resolves and delete it otherwise. -/
def applyLoot (bed : List (String × Tag)) (lt : String) (seed : Option Int) :
    List (String × Tag) :=
  let bed1 := objAssign bed "LootTable" (Tag.string lt)
  match seed with
  | none => objDelete bed1 "LootTableSeed"
  | some s => objAssign bed1 "LootTableSeed" (Tag.long s)

/-- Per-record step of the processFile loop on one block_entity_data
compound: skip when the id is absent or not a string, when no rule matches
the tile id, or when the rule carries no (or a falsy) loot path; otherwise
write when eligible.  Returns the new compound and the contribution to the
mutation count. -/
def mutateBed (tileConfig : List (String × TileRule)) (o : MutOpts)
    (bed : List (String × Tag)) : List (String × Tag) × Nat :=
  match objGet bed "id" with
  | some (Tag.string tileId) =>
    match objGet tileConfig tileId with
    | some rule =>
      match rule.loot_table with
      | some lt =>
        if lt = "" then (bed, 0)
        else if writeAllowed o bed then (applyLoot bed lt (resolveSeed rule o), 1)
        else (bed, 0)
      | none => (bed, 0)
    | none => (bed, 0)
  | _ => (bed, 0)

/-- Per-entry step of the processFile loop on one block_position_data
value: skip entries that are not compounds or lack a block_entity_data
compound. -/
def mutatePosEntry (tileConfig : List (String × TileRule)) (o : MutOpts)
    (pe : Tag) : Tag × Nat :=
  match pe with
  | Tag.compound m =>
    match objGet m "block_entity_data" with
    | some (Tag.compound bed) =>
      let r := mutateBed tileConfig o bed
      (Tag.compound (objAssign m "block_entity_data" (Tag.compound r.1)), r.2)
    | _ => (pe, 0)
  | _ => (pe, 0)

/-- The processFile loop over every entry of block_position_data, returning
the mutated entries and the total mutation count. -/
def processRecords (tileConfig : List (String × TileRule)) (o : MutOpts) :
    List (String × Tag) → List (String × Tag) × Nat
  | [] => ([], 0)
  | (ik, pe) :: rest =>
    let r1 := mutatePosEntry tileConfig o pe
    let r2 := processRecords tileConfig o rest
    ((ik, r1.1) :: r2.1, r1.2 + r2.2)

/-- Lookup of a compound-valued property. -/
def getCompound (m : List (String × Tag)) (k : String) :
    Option (List (String × Tag)) :=
  match objGet m k with
  | some (Tag.compound v) => some v
  | _ => none

/-- Mutation options derived from the config by processFile. -/
def configMutOpts (config : Config) (onlyUnassigned : Bool) : MutOpts :=
  { onlyUnassigned := onlyUnassigned
    overrideExisting :=
      match config.defaults with
      | some d => d.override_existing
      | none => false
    defaultSeed :=
      match config.defaults with
      | some d => d.seed
      | none => none }

/-- Reassembly of the root compound after mutating block_position_data,
mirroring the in-place mutation in main.js. -/
def rebuild (rootVal sv pv dv bpd : List (String × Tag)) : List (String × Tag) :=
  objAssign rootVal "structure" (Tag.compound (objAssign sv "palette"
    (Tag.compound (objAssign pv "default" (Tag.compound
      (objAssign dv "block_position_data" (Tag.compound bpd)))))))

/-- processFile from main.js on a decoded root compound: skip (with count
zero) when structure, palette or palette.default is absent or not a
compound; synthesize an empty block_position_data compound when that
container is missing; otherwise run the mutation loop with the effective
tile config.  Returns the new root, the mutation count and the skip flag. -/
def processStructure (config : Config) (relToStructures filePath : String)
    (onlyUnassigned : Bool) (rootVal : List (String × Tag)) :
    List (String × Tag) × Nat × Bool :=
  match getCompound rootVal "structure" with
  | none => (rootVal, 0, true)
  | some sv =>
    match getCompound sv "palette" with
    | none => (rootVal, 0, true)
    | some pv =>
      match getCompound pv "default" with
      | none => (rootVal, 0, true)
      | some dv =>
        let folderRule := pickFolderRule config relToStructures
        let tileConfig := effectiveTileConfig config folderRule filePath
        let o := configMutOpts config onlyUnassigned
        match objGet dv "block_position_data" with
        | some (Tag.compound bpd) =>
          let r := processRecords tileConfig o bpd
          (rebuild rootVal sv pv dv r.1, r.2, false)
        | some _ => (rootVal, 0, false)
        | none =>
          let r := processRecords tileConfig o []
          (rebuild rootVal sv pv dv r.1, r.2, false)

/- ------------------------------------------------------------------ -/
/- Structure tree codec                                               -/
/- Modelled from the spec: the binary codec is provided by the        -/
/- prismarine-nbt dependency (only its call sites are in the source); -/
/- the definitions below follow section 4.3 of the specification:     -/
/- little-endian, uncompressed tagged binary tree with compound,      -/
/- list and scalar leaf kinds carrying exact width and type.          -/
/- ------------------------------------------------------------------ -/

/-- Read one byte; fails on values outside the byte range. -/
def readByte : List Nat → Option (Nat × List Nat)
  | [] => none
  | b :: bs => if b < 256 then some (b, bs) else none

/-- Read a little-endian unsigned integer of the given width. -/
def readLE : Nat → List Nat → Option (Nat × List Nat)
  | 0, bs => some (0, bs)
  | w + 1, bs =>
    match readByte bs with
    | none => none
    | some (b, bs1) =>
      match readLE w bs1 with
      | none => none
      | some (v, bs2) => some (b + 256 * v, bs2)

/-- Write a little-endian unsigned integer of the given width. -/
def writeLE : Nat → Nat → List Nat
  | 0, _ => []
  | w + 1, v => v % 256 :: writeLE w (v / 256)

/-- Split off a raw byte chunk of the given length. -/
def readBytes : Nat → List Nat → Option (List Nat × List Nat)
  | 0, bs => some ([], bs)
  | _ + 1, [] => none
  | n + 1, b :: bs =>
    match readBytes n bs with
    | none => none
    | some (xs, r) => some (b :: xs, r)

/-- Read a run of little-endian integers of a fixed width. -/
def readMulti (w : Nat) : Nat → List Nat → Option (List Nat × List Nat)
  | 0, bs => some ([], bs)
  | n + 1, bs =>
    match readLE w bs with
    | none => none
    | some (v, bs1) =>
      match readMulti w n bs1 with
      | none => none
      | some (vs, bs2) => some (v :: vs, bs2)

/-- UTF-8 encoding of one scalar value. -/
def utf8EncodeChar (c : Char) : List Nat :=
  let n := c.toNat
  if n < 128 then [n]
  else if n < 2048 then [192 + n / 64, 128 + n % 64]
  else if n < 65536 then [224 + n / 4096, 128 + n / 64 % 64, 128 + n % 64]
  else [240 + n / 262144, 128 + n / 4096 % 64, 128 + n / 64 % 64, 128 + n % 64]

/-- UTF-8 encoding of a string. -/
def utf8Encode (s : String) : List Nat :=
  (s.toList.map utf8EncodeChar).flatten

/-- Continuation byte test. -/
def isCont (b : Nat) : Bool :=
  128 ≤ b && b < 192

/-- Two-byte UTF-8 tail. -/
def utf8Cont2 (b0 : Nat) : List Nat → Option (Char × List Nat)
  | b1 :: bs1 =>
    if isCont b1 then some (Char.ofNat ((b0 - 192) * 64 + (b1 - 128)), bs1)
    else none
  | [] => none

/-- Three-byte UTF-8 tail: rejects overlong forms and surrogates. -/
def utf8Cont3 (b0 : Nat) : List Nat → Option (Char × List Nat)
  | b1 :: b2 :: bs2 =>
    if isCont b1 && isCont b2 &&
        decide (2048 ≤ (b0 - 224) * 4096 + (b1 - 128) * 64 + (b2 - 128)) &&
        (decide ((b0 - 224) * 4096 + (b1 - 128) * 64 + (b2 - 128) < 55296) ||
         decide (57344 ≤ (b0 - 224) * 4096 + (b1 - 128) * 64 + (b2 - 128)))
    then some (Char.ofNat ((b0 - 224) * 4096 + (b1 - 128) * 64 + (b2 - 128)), bs2)
    else none
  | _ => none

/-- Four-byte UTF-8 tail: rejects overlong forms and out-of-range values. -/
def utf8Cont4 (b0 : Nat) : List Nat → Option (Char × List Nat)
  | b1 :: b2 :: b3 :: bs3 =>
    if isCont b1 && isCont b2 && isCont b3 &&
        decide (65536 ≤ (b0 - 240) * 262144 + (b1 - 128) * 4096 + (b2 - 128) * 64 + (b3 - 128)) &&
        decide ((b0 - 240) * 262144 + (b1 - 128) * 4096 + (b2 - 128) * 64 + (b3 - 128) < 1114112)
    then some (Char.ofNat ((b0 - 240) * 262144 + (b1 - 128) * 4096 + (b2 - 128) * 64 + (b3 - 128)), bs3)
    else none
  | _ => none

/-- Strict UTF-8 decoding of one scalar value: rejects overlong forms,
surrogates and out-of-range codepoints, so decoding is canonical. -/
def utf8DecodeChar : List Nat → Option (Char × List Nat)
  | [] => none
  | b0 :: bs =>
    if b0 < 128 then some (Char.ofNat b0, bs)
    else if b0 < 194 then none
    else if b0 < 224 then utf8Cont2 b0 bs
    else if b0 < 240 then utf8Cont3 b0 bs
    else if b0 < 245 then utf8Cont4 b0 bs
    else none

/-- Strict UTF-8 decoding of a byte chunk, fuelled by its length. -/
def utf8DecodeList : Nat → List Nat → Option (List Char)
  | _, [] => some []
  | 0, _ :: _ => none
  | f + 1, bs =>
    match utf8DecodeChar bs with
    | none => none
    | some (c, rest) =>
      match utf8DecodeList f rest with
      | none => none
      | some cs => some (c :: cs)

/-- Strict UTF-8 decoding of a whole byte chunk. -/
def utf8Decode (bs : List Nat) : Option String :=
  match utf8DecodeList bs.length bs with
  | some cs => some (String.mk cs)
  | none => none

/-- Read a length-prefixed string (two-byte little-endian length). -/
def readString (bs : List Nat) : Option (String × List Nat) :=
  match readLE 2 bs with
  | none => none
  | some (len, bs1) =>
    match readBytes len bs1 with
    | none => none
    | some (chunk, bs2) =>
      match utf8Decode chunk with
      | none => none
      | some s => some (s, bs2)

/-- Write a length-prefixed string. -/
def encodeString (s : String) : List Nat :=
  writeLE 2 (utf8Encode s).length ++ utf8Encode s

/-- Serialize a run of fixed-width little-endian integers. -/
def encodeMulti (w : Nat) : List Nat → List Nat
  | [] => []
  | v :: vs => writeLE w v ++ encodeMulti w vs

mutual

/-- Serialize one payload of the tagged binary tree. -/
def encodePayload : Tag → List Nat
  | .byte v => [v % 256]
  | .short v => writeLE 2 v
  | .int v => writeLE 4 v
  | .long v => writeLE 8 (v % (2 ^ 64 : Int)).toNat
  | .float raw => raw
  | .double raw => raw
  | .byteArray raw => writeLE 4 raw.length ++ raw
  | .string s => encodeString s
  | .list t es => t % 256 :: (writeLE 4 es.length ++ encodeElems es)
  | .compound m => encodeEntries m
  | .intArray vs => writeLE 4 vs.length ++ encodeMulti 4 vs
  | .longArray vs => writeLE 4 vs.length ++ encodeMulti 8 vs

/-- Serialize list elements back to back. -/
def encodeElems : List Tag → List Nat
  | [] => []
  | e :: es => encodePayload e ++ encodeElems es

/-- Serialize compound entries, each as type byte, name and payload, with
the end marker after the last entry. -/
def encodeEntries : List (String × Tag) → List Nat
  | [] => [0]
  | (k, v) :: rest => tagId v % 256 :: (encodeString k ++ (encodePayload v ++ encodeEntries rest))

end

mutual

/-- Parse one payload of the given tag type, fuelled. -/
def decodePayload : Nat → Nat → List Nat → Option (Tag × List Nat)
  | 0, _, _ => none
  | f + 1, t, bs =>
    if t = 1 then
      match readByte bs with
      | some (v, r) => some (.byte v, r)
      | none => none
    else if t = 2 then
      match readLE 2 bs with
      | some (v, r) => some (.short v, r)
      | none => none
    else if t = 3 then
      match readLE 4 bs with
      | some (v, r) => some (.int v, r)
      | none => none
    else if t = 4 then
      match readLE 8 bs with
      | some (u, r) =>
        some (.long (if u < 2 ^ 63 then (u : Int) else (u : Int) - 2 ^ 64), r)
      | none => none
    else if t = 5 then
      match readBytes 4 bs with
      | some (raw, r) => some (.float raw, r)
      | none => none
    else if t = 6 then
      match readBytes 8 bs with
      | some (raw, r) => some (.double raw, r)
      | none => none
    else if t = 7 then
      match readLE 4 bs with
      | some (n, r1) =>
        match readBytes n r1 with
        | some (raw, r2) => some (.byteArray raw, r2)
        | none => none
      | none => none
    else if t = 8 then
      match readString bs with
      | some (s, r) => some (.string s, r)
      | none => none
    else if t = 9 then
      match readByte bs with
      | some (et, r1) =>
        match readLE 4 r1 with
        | some (n, r2) =>
          match decodeElems f et n r2 with
          | some (es, r3) => some (.list et es, r3)
          | none => none
        | none => none
      | none => none
    else if t = 10 then
      match decodeEntries f bs with
      | some (m, r) => some (.compound m, r)
      | none => none
    else if t = 11 then
      match readLE 4 bs with
      | some (n, r1) =>
        match readMulti 4 n r1 with
        | some (vs, r2) => some (.intArray vs, r2)
        | none => none
      | none => none
    else if t = 12 then
      match readLE 4 bs with
      | some (n, r1) =>
        match readMulti 8 n r1 with
        | some (vs, r2) => some (.longArray vs, r2)
        | none => none
      | none => none
    else none

/-- Parse a counted run of list elements of one tag type, fuelled. -/
def decodeElems : Nat → Nat → Nat → List Nat → Option (List Tag × List Nat)
  | 0, _, _, _ => none
  | _ + 1, _, 0, bs => some ([], bs)
  | f + 1, t, n + 1, bs =>
    match decodePayload f t bs with
    | some (e, r1) =>
      match decodeElems f t n r1 with
      | some (es, r2) => some (e :: es, r2)
      | none => none
    | none => none

/-- Parse compound entries up to the end marker, fuelled. -/
def decodeEntries : Nat → List Nat → Option (List (String × Tag) × List Nat)
  | 0, _ => none
  | f + 1, bs =>
    match readByte bs with
    | some (t, r1) =>
      if t = 0 then some ([], r1)
      else
        match readString r1 with
        | some (name, r2) =>
          match decodePayload f t r2 with
          | some (v, r3) =>
            match decodeEntries f r3 with
            | some (m, r4) => some ((name, v) :: m, r4)
            | none => none
          | none => none
        | none => none
    | none => none

end

/-- Decode a whole file: root type byte, root name, root payload, and no
trailing bytes. -/
def decodeNbt (bs : List Nat) : Option (String × Tag) :=
  match readByte bs with
  | some (t, r1) =>
    match readString r1 with
    | some (name, r2) =>
      match decodePayload (bs.length + 1) t r2 with
      | some (v, r3) => if r3 = [] then some (name, v) else none
      | none => none
    | none => none
  | none => none

/-- Encode a whole file: root type byte, root name, root payload. -/
def encodeNbt (p : String × Tag) : List Nat :=
  tagId p.2 % 256 :: (encodeString p.1 ++ encodePayload p.2)

/- ------------------------------------------------------------------ -/
/- Lemmas on object operations                                        -/
/- ------------------------------------------------------------------ -/

theorem objGet_objAssign_self {α : Type} (m : List (String × α)) (k : String) (v : α) :
    objGet (objAssign m k v) k = some v := by
  induction m with
  | nil => simp [objAssign, objGet]
  | cons p rest ih =>
    obtain ⟨k', v'⟩ := p
    by_cases h : k' = k
    · rw [objAssign, if_pos h, objGet, if_pos h]
    · rw [objAssign, if_neg h, objGet, if_neg h]
      exact ih

theorem objGet_objAssign_ne {α : Type} (m : List (String × α)) (k t : String) (v : α)
    (h : t ≠ k) : objGet (objAssign m k v) t = objGet m t := by
  induction m with
  | nil => simp [objAssign, objGet, Ne.symm h]
  | cons p rest ih =>
    obtain ⟨k', v'⟩ := p
    by_cases hp : k' = k
    · rw [objAssign, if_pos hp, objGet, objGet]
      have : ¬ (k' = t) := by rw [hp]; exact Ne.symm h
      rw [if_neg this, if_neg this]
    · rw [objAssign, if_neg hp, objGet, objGet]
      by_cases ht : k' = t
      · rw [if_pos ht, if_pos ht]
      · rw [if_neg ht, if_neg ht]
        exact ih

theorem objAssign_eq_self {α : Type} (m : List (String × α)) (k : String) (v : α)
    (h : objGet m k = some v) : objAssign m k v = m := by
  induction m with
  | nil => simp [objGet] at h
  | cons p rest ih =>
    obtain ⟨k', v'⟩ := p
    by_cases hp : k' = k
    · rw [objGet, if_pos hp] at h
      injection h with h
      rw [objAssign, if_pos hp, h]
    · rw [objGet, if_neg hp] at h
      rw [objAssign, if_neg hp, ih h]

theorem objGet_eq_none_of_not_mem {α : Type} (m : List (String × α)) (k : String)
    (h : k ∉ m.map Prod.fst) : objGet m k = none := by
  induction m with
  | nil => rfl
  | cons p rest ih =>
    rw [List.map_cons, List.mem_cons] at h
    push_neg at h
    rw [objGet, if_neg (Ne.symm h.1)]
    exact ih h.2

theorem objGet_mem {α : Type} (m : List (String × α)) (k : String) (v : α)
    (h : objGet m k = some v) : (k, v) ∈ m := by
  induction m with
  | nil => simp [objGet] at h
  | cons p rest ih =>
    obtain ⟨k', v'⟩ := p
    by_cases hp : k' = k
    · rw [objGet, if_pos hp] at h
      injection h with h
      subst hp
      subst h
      exact List.mem_cons_self _ _
    · rw [objGet, if_neg hp] at h
      exact List.mem_cons_of_mem _ (ih h)

theorem objGet_objDelete_self {α : Type} (m : List (String × α)) (k : String) :
    objGet (objDelete m k) k = none := by
  induction m with
  | nil => rfl
  | cons p rest ih =>
    obtain ⟨k', v'⟩ := p
    by_cases hp : k' = k
    · rw [objDelete, if_pos hp]
      exact ih
    · rw [objDelete, if_neg hp, objGet, if_neg hp]
      exact ih

theorem objGet_objDelete_ne {α : Type} (m : List (String × α)) (k t : String)
    (h : t ≠ k) : objGet (objDelete m k) t = objGet m t := by
  induction m with
  | nil => rfl
  | cons p rest ih =>
    obtain ⟨k', v'⟩ := p
    by_cases hp : k' = k
    · have hkt : ¬ (k' = t) := by rw [hp]; exact Ne.symm h
      rw [objDelete, if_pos hp, objGet, if_neg hkt]
      exact ih
    · rw [objDelete, if_neg hp, objGet, objGet]
      by_cases ht : k' = t
      · rw [if_pos ht, if_pos ht]
      · rw [if_neg ht, if_neg ht]
        exact ih

theorem objAssign_of_not_mem {α : Type} (m : List (String × α)) (k : String) (v : α)
    (h : k ∉ m.map Prod.fst) : objAssign m k v = m ++ [(k, v)] := by
  induction m with
  | nil => rfl
  | cons p rest ih =>
    rw [List.map_cons, List.mem_cons] at h
    push_neg at h
    obtain ⟨k', v'⟩ := p
    rw [objAssign, if_neg (Ne.symm h.1), List.cons_append, ih h.2]

theorem objGet_assignAll {α : Type} (layer : List (String × α)) :
    ∀ (out : List (String × α)) (t : String), (layer.map Prod.fst).Nodup →
    objGet (assignAll out layer) t = orO (objGet layer t) (objGet out t) := by
  induction layer with
  | nil => intro out t _; simp [assignAll, objGet, orO]
  | cons p rest ih =>
    intro out t hnd
    obtain ⟨k, v⟩ := p
    simp at hnd
    by_cases ht : t = k
    · subst ht
      have hrest : objGet rest t = none :=
        objGet_eq_none_of_not_mem rest t (by simpa using hnd.1)
      simp [assignAll, ih _ t hnd.2, hrest, objGet, orO, objGet_objAssign_self]
    · have : ¬ (k = t) := fun hh => ht hh.symm
      simp [assignAll, ih _ t hnd.2, objGet, this, objGet_objAssign_ne _ _ _ _ ht]

theorem objGet_assignWrapped (d : List (String × String)) :
    ∀ (out : List (String × TileRule)) (t : String), (d.map Prod.fst).Nodup →
    objGet (assignWrapped out d) t = orO (wrapGet d t) (objGet out t) := by
  induction d with
  | nil => intro out t _; simp [assignWrapped, wrapGet, objGet, orO]
  | cons p rest ih =>
    intro out t hnd
    obtain ⟨k, lt⟩ := p
    simp at hnd
    by_cases ht : t = k
    · subst ht
      have hrest : objGet rest t = none :=
        objGet_eq_none_of_not_mem rest t (by simpa using hnd.1)
      by_cases hlt : lt = ""
      · simp [assignWrapped, hlt, ih _ t hnd.2, wrapGet, objGet, hrest, orO]
      · simp [assignWrapped, hlt, ih _ t hnd.2, wrapGet, objGet, hrest, orO,
          objGet_objAssign_self]
    · have hkt : ¬ (k = t) := fun hh => ht hh.symm
      by_cases hlt : lt = ""
      · simp [assignWrapped, hlt, ih _ t hnd.2, wrapGet, objGet, hkt]
      · simp [assignWrapped, hlt, ih _ t hnd.2, wrapGet, objGet, hkt,
          objGet_objAssign_ne _ _ _ _ ht]

theorem assignAll_disjoint {α : Type} (layer : List (String × α)) :
    ∀ (out : List (String × α)), (layer.map Prod.fst).Nodup →
    (∀ k, k ∈ layer.map Prod.fst → k ∉ out.map Prod.fst) →
    assignAll out layer = out ++ layer := by
  induction layer with
  | nil => intro out _ _; simp [assignAll]
  | cons p rest ih =>
    intro out hnd hdis
    obtain ⟨k, v⟩ := p
    rw [List.map_cons, List.nodup_cons] at hnd
    rw [assignAll, objAssign_of_not_mem out k v (hdis k (by simp))]
    rw [ih _ hnd.2]
    · simp
    · intro k2 hk2
      rw [List.map_append, List.mem_append]
      rintro (hc | hc)
      · exact hdis k2 (by rw [List.map_cons]; exact List.mem_cons_of_mem _ hk2) hc
      · simp at hc
        subst hc
        exact hnd.1 hk2

theorem orO_none_right {α : Type} (a : Option α) : orO a none = a := by
  cases a <;> rfl

/- ------------------------------------------------------------------ -/
/- Lemmas on selectBest                                               -/
/- ------------------------------------------------------------------ -/

theorem selectBest_eq_none {α : Type} (score : String → Option Nat) :
    ∀ (l : List (String × α)) (acc : Option (Nat × String × α)),
    selectBest score l acc = none ↔ (acc = none ∧ ∀ p ∈ l, score p.1 = none) := by
  intro l
  induction l with
  | nil => intro acc; simp [selectBest]
  | cons p rest ih =>
    intro acc
    obtain ⟨k, v⟩ := p
    cases hs : score k with
    | none =>
      simp only [selectBest, hs, ih]
      constructor
      · rintro ⟨h1, h2⟩
        refine ⟨h1, ?_⟩
        intro q hq
        rcases List.mem_cons.mp hq with h | h
        · subst h; exact hs
        · exact h2 q h
      · rintro ⟨h1, h2⟩
        exact ⟨h1, fun q hq => h2 q (List.mem_cons_of_mem _ hq)⟩
    | some n =>
      cases acc with
      | none =>
        simp only [selectBest, hs, ih]
        constructor
        · rintro ⟨h1, _⟩; exact absurd h1 (by simp)
        · rintro ⟨_, h2⟩
          have := h2 (k, v) (by simp)
          simp [hs] at this
      | some b =>
        by_cases hb : b.1 < n
        · simp only [selectBest, hs, if_pos hb, ih]
          constructor
          · rintro ⟨h1, _⟩; exact absurd h1 (by simp)
          · rintro ⟨h1, _⟩; exact absurd h1 (by simp)
        · simp only [selectBest, hs, if_neg hb, ih]
          constructor
          · rintro ⟨h1, _⟩; exact absurd h1 (by simp)
          · rintro ⟨h1, _⟩; exact absurd h1 (by simp)

theorem selectBest_spec {α : Type} (score : String → Option Nat) :
    ∀ (l : List (String × α)) (acc : Option (Nat × String × α)) (n : Nat) (k : String) (v : α),
    selectBest score l acc = some (n, k, v) →
    ((acc = some (n, k, v) ∨ ((k, v) ∈ l ∧ score k = some n)) ∧
     (∀ m k0 v0, acc = some (m, k0, v0) → m ≤ n) ∧
     (∀ p ∈ l, ∀ m, score p.1 = some m → m ≤ n)) := by
  intro l
  induction l with
  | nil =>
    intro acc n k v h
    simp [selectBest] at h
    subst h
    refine ⟨Or.inl rfl, ?_, ?_⟩
    · intro m k0 v0 hm
      injection hm with hm
      injection hm with h1 _
      omega
    · intro p hp; simp at hp
  | cons q rest ih =>
    intro acc n k v h
    obtain ⟨k', v'⟩ := q
    cases hs : score k' with
    | none =>
      rw [selectBest, hs] at h
      obtain ⟨h1, h2, h3⟩ := ih acc n k v h
      refine ⟨?_, h2, ?_⟩
      · rcases h1 with h1 | h1
        · exact Or.inl h1
        · exact Or.inr ⟨List.mem_cons_of_mem _ h1.1, h1.2⟩
      · intro p hp m hm
        rcases List.mem_cons.mp hp with hh | hh
        · subst hh; simp [hs] at hm
        · exact h3 p hh m hm
    | some n' =>
      cases acc with
      | none =>
        rw [selectBest, hs] at h
        obtain ⟨h1, h2, h3⟩ := ih (some (n', k', v')) n k v h
        have hn' : n' ≤ n := h2 n' k' v' rfl
        refine ⟨?_, ?_, ?_⟩
        · rcases h1 with h1 | h1
          · injection h1 with h1
            injection h1 with ha hb
            injection hb with hb hc
            subst ha; subst hb; subst hc
            exact Or.inr ⟨by simp, hs⟩
          · exact Or.inr ⟨List.mem_cons_of_mem _ h1.1, h1.2⟩
        · intro m k0 v0 hm; cases hm
        · intro p hp m hm
          rcases List.mem_cons.mp hp with hh | hh
          · subst hh
            rw [hs] at hm
            injection hm with hm
            omega
          · exact h3 p hh m hm
      | some b =>
        obtain ⟨bn, bk, bv⟩ := b
        by_cases hb : bn < n'
        · rw [selectBest, hs] at h
          simp only [if_pos hb] at h
          obtain ⟨h1, h2, h3⟩ := ih (some (n', k', v')) n k v h
          have hn' : n' ≤ n := h2 n' k' v' rfl
          refine ⟨?_, ?_, ?_⟩
          · rcases h1 with h1 | h1
            · injection h1 with h1
              injection h1 with ha hb2
              injection hb2 with hb2 hc
              subst ha; subst hb2; subst hc
              exact Or.inr ⟨by simp, hs⟩
            · exact Or.inr ⟨List.mem_cons_of_mem _ h1.1, h1.2⟩
          · intro m k0 v0 hm
            injection hm with hm
            injection hm with ha _
            omega
          · intro p hp m hm
            rcases List.mem_cons.mp hp with hh | hh
            · subst hh
              rw [hs] at hm
              injection hm with hm
              omega
            · exact h3 p hh m hm
        · rw [selectBest, hs] at h
          simp only [if_neg hb] at h
          obtain ⟨h1, h2, h3⟩ := ih (some (bn, bk, bv)) n k v h
          have hbn : bn ≤ n := h2 bn bk bv rfl
          refine ⟨?_, ?_, ?_⟩
          · rcases h1 with h1 | h1
            · exact Or.inl h1
            · exact Or.inr ⟨List.mem_cons_of_mem _ h1.1, h1.2⟩
          · intro m k0 v0 hm
            injection hm with hm
            injection hm with ha _
            omega
          · intro p hp m hm
            rcases List.mem_cons.mp hp with hh | hh
            · subst hh
              rw [hs] at hm
              injection hm with hm
              omega
            · exact h3 p hh m hm

/- ------------------------------------------------------------------ -/
/- Lemmas on the mutation engine                                      -/
/- ------------------------------------------------------------------ -/

theorem mutateBed_cases (tc : List (String × TileRule)) (o : MutOpts)
    (bed : List (String × Tag)) :
    mutateBed tc o bed = (bed, 0) ∨
    (∃ tileId rule lt, objGet bed "id" = some (Tag.string tileId) ∧
      objGet tc tileId = some rule ∧ rule.loot_table = some lt ∧ lt ≠ "" ∧
      writeAllowed o bed = true ∧
      mutateBed tc o bed = (applyLoot bed lt (resolveSeed rule o), 1)) := by
  cases hid : objGet bed "id" with
  | none => left; simp only [mutateBed, hid]
  | some t =>
    cases t with
    | string tileId =>
      cases hr : objGet tc tileId with
      | none => left; simp only [mutateBed, hid, hr]
      | some rule =>
        cases hlt : rule.loot_table with
        | none => left; simp only [mutateBed, hid, hr, hlt]
        | some lt =>
          by_cases hne : lt = ""
          · left
            simp only [mutateBed, hid, hr, hlt, if_pos hne]
          · by_cases hw : writeAllowed o bed = true
            · right
              exact ⟨tileId, rule, lt, rfl, hr, hlt, hne, hw, by
                simp only [mutateBed, hid, hr, hlt, if_neg hne, if_pos hw]⟩
            · left
              simp only [mutateBed, hid, hr, hlt, if_neg hne, if_neg hw]
    | byte v => left; simp only [mutateBed, hid]
    | short v => left; simp only [mutateBed, hid]
    | int v => left; simp only [mutateBed, hid]
    | long v => left; simp only [mutateBed, hid]
    | float raw => left; simp only [mutateBed, hid]
    | double raw => left; simp only [mutateBed, hid]
    | byteArray raw => left; simp only [mutateBed, hid]
    | list t es => left; simp only [mutateBed, hid]
    | compound m => left; simp only [mutateBed, hid]
    | intArray vs => left; simp only [mutateBed, hid]
    | longArray vs => left; simp only [mutateBed, hid]

theorem objGet_applyLoot_other (bed : List (String × Tag)) (lt : String)
    (seed : Option Int) (k : String) (h1 : k ≠ "LootTable") (h2 : k ≠ "LootTableSeed") :
    objGet (applyLoot bed lt seed) k = objGet bed k := by
  cases seed with
  | none =>
    simp only [applyLoot]
    rw [objGet_objDelete_ne _ _ _ h2, objGet_objAssign_ne _ _ _ _ h1]
  | some s =>
    simp only [applyLoot]
    rw [objGet_objAssign_ne _ _ _ _ h2, objGet_objAssign_ne _ _ _ _ h1]

theorem objGet_applyLoot_lootTable (bed : List (String × Tag)) (lt : String)
    (seed : Option Int) :
    objGet (applyLoot bed lt seed) "LootTable" = some (Tag.string lt) := by
  cases seed with
  | none =>
    simp only [applyLoot]
    rw [objGet_objDelete_ne _ _ _ (by decide), objGet_objAssign_self]
  | some s =>
    simp only [applyLoot]
    rw [objGet_objAssign_ne _ _ _ _ (by decide), objGet_objAssign_self]

theorem mutateBed_frame (tc : List (String × TileRule)) (o : MutOpts)
    (bed : List (String × Tag)) (k : String)
    (h1 : k ≠ "LootTable") (h2 : k ≠ "LootTableSeed") :
    objGet (mutateBed tc o bed).1 k = objGet bed k := by
  rcases mutateBed_cases tc o bed with h | ⟨tileId, rule, lt, _, _, _, _, _, h⟩
  · rw [h]
  · rw [h]
    exact objGet_applyLoot_other bed lt _ k h1 h2

theorem mutateBed_zero_unchanged (tc : List (String × TileRule)) (o : MutOpts)
    (bed : List (String × Tag)) (h : (mutateBed tc o bed).2 = 0) :
    (mutateBed tc o bed).1 = bed := by
  rcases mutateBed_cases tc o bed with hc | ⟨_, _, _, _, _, _, _, _, hc⟩
  · rw [hc]
  · rw [hc] at h
    simp at h

theorem writeAllowed_false_hasLoot (o : MutOpts) (bed : List (String × Tag))
    (h : ¬ writeAllowed o bed = true) : hasLootAlready bed = true := by
  by_cases hl : hasLootAlready bed = true
  · exact hl
  · exfalso
    apply h
    rw [writeAllowed]
    have hf : hasLootAlready bed = false := by simpa using hl
    rw [hf]
    cases o.onlyUnassigned <;> simp

theorem mutateBed_second_zero (tc : List (String × TileRule)) (o1 o2 : MutOpts)
    (bed : List (String × Tag))
    (hlt : ∀ p ∈ tc, ∀ lt, p.2.loot_table = some lt → lt ≠ "" → jsTrim lt ≠ "")
    (h2 : o2.onlyUnassigned = true) :
    (mutateBed tc o2 (mutateBed tc o1 bed).1).2 = 0 := by
  rcases mutateBed_cases tc o1 bed with hc | ⟨tileId, rule, lt, hid, hr, hl, hne, hw, hc⟩
  · -- first run unchanged: the second run takes the same skip path, or the
    -- skip was a write-eligibility skip and the record is still assigned
    rw [hc]
    rcases mutateBed_cases tc o2 bed with hc2 | ⟨tileId2, rule2, lt2, hid2, hr2, hl2, hne2, hw2, hc2⟩
    · rw [hc2]
    · -- second run writes although the first did not: the first skip can
      -- then only come from write eligibility, contradicting h2
      exfalso
      simp only [mutateBed, hid2, hr2, hl2, if_neg hne2] at hc
      by_cases hw1 : writeAllowed o1 bed = true
      · rw [if_pos hw1] at hc
        have := congrArg Prod.snd hc
        simp at this
      · have hassigned := writeAllowed_false_hasLoot o1 bed hw1
        rw [writeAllowed, h2, hassigned] at hw2
        simp at hw2
  · -- first run wrote: the record is now assigned with a non-blank path
    rw [hc]
    have hid2 : objGet (applyLoot bed lt (resolveSeed rule o1)) "id" =
        some (Tag.string tileId) := by
      rw [objGet_applyLoot_other bed lt _ "id" (by decide) (by decide)]
      exact hid
    have hassigned : hasLootAlready (applyLoot bed lt (resolveSeed rule o1)) = true := by
      rw [hasLootAlready, objGet_applyLoot_lootTable]
      have := hlt (tileId, rule) (objGet_mem tc tileId rule hr) lt hl hne
      simpa using this
    have hw2 : ¬ (writeAllowed o2 (applyLoot bed lt (resolveSeed rule o1)) = true) := by
      rw [writeAllowed, h2, hassigned]
      simp
    simp only [mutateBed, hid2, hr, hl, if_neg hne, if_neg hw2]

/- ------------------------------------------------------------------ -/
/- Lemmas on the codec: every successful parse re-encodes to exactly  -/
/- the bytes it consumed                                              -/
/- ------------------------------------------------------------------ -/

theorem readByte_spec (bs : List Nat) (b : Nat) (r : List Nat)
    (h : readByte bs = some (b, r)) : b < 256 ∧ b :: r = bs := by
  cases bs with
  | nil => simp [readByte] at h
  | cons x xs =>
    rw [readByte] at h
    by_cases hx : x < 256
    · rw [if_pos hx] at h
      injection h with h
      injection h with h1 h2
      subst h1; subst h2
      exact ⟨hx, rfl⟩
    · rw [if_neg hx] at h
      cases h

theorem readLE_spec : ∀ (w : Nat) (bs : List Nat) (v : Nat) (r : List Nat),
    readLE w bs = some (v, r) → v < 256 ^ w ∧ writeLE w v ++ r = bs := by
  intro w
  induction w with
  | zero =>
    intro bs v r h
    rw [readLE] at h
    injection h with h
    injection h with h1 h2
    subst h1; subst h2
    exact ⟨by norm_num, rfl⟩
  | succ w ih =>
    intro bs v r h
    rw [readLE] at h
    cases hb : readByte bs with
    | none => simp only [hb] at h; cases h
    | some p =>
      obtain ⟨b, bs1⟩ := p
      simp only [hb] at h
      cases hl : readLE w bs1 with
      | none => simp only [hl] at h; cases h
      | some q =>
        obtain ⟨v', bs2⟩ := q
        simp only [hl] at h
        injection h with h
        injection h with h1 h2
        subst h1; subst h2
        obtain ⟨hb256, hbs⟩ := readByte_spec bs b bs1 hb
        obtain ⟨hv', hbs1⟩ := ih bs1 v' bs2 hl
        constructor
        · have hpow : 256 ^ (w + 1) = 256 ^ w * 256 := by ring
          nlinarith
        · rw [writeLE]
          have hmod : (b + 256 * v') % 256 = b := by omega
          have hdiv : (b + 256 * v') / 256 = v' := by omega
          rw [hmod, hdiv, List.cons_append, hbs1, hbs]

theorem readBytes_spec : ∀ (n : Nat) (bs xs r : List Nat),
    readBytes n bs = some (xs, r) → xs.length = n ∧ xs ++ r = bs := by
  intro n
  induction n with
  | zero =>
    intro bs xs r h
    rw [readBytes] at h
    injection h with h
    injection h with h1 h2
    subst h1; subst h2
    exact ⟨rfl, rfl⟩
  | succ n ih =>
    intro bs xs r h
    cases bs with
    | nil => rw [readBytes] at h; cases h
    | cons b bs' =>
      rw [readBytes] at h
      cases hr : readBytes n bs' with
      | none => rw [hr] at h; cases h
      | some q =>
        obtain ⟨xs', r'⟩ := q
        rw [hr] at h
        injection h with h
        injection h with h1 h2
        subst h1; subst h2
        obtain ⟨hlen, happ⟩ := ih bs' xs' r' hr
        exact ⟨by simp [hlen], by rw [List.cons_append, happ]⟩

theorem readMulti_spec (w : Nat) : ∀ (n : Nat) (bs : List Nat) (vs : List Nat) (r : List Nat),
    readMulti w n bs = some (vs, r) → vs.length = n ∧ encodeMulti w vs ++ r = bs := by
  intro n
  induction n with
  | zero =>
    intro bs vs r h
    rw [readMulti] at h
    injection h with h
    injection h with h1 h2
    subst h1; subst h2
    exact ⟨rfl, rfl⟩
  | succ n ih =>
    intro bs vs r h
    rw [readMulti] at h
    cases hv : readLE w bs with
    | none => simp only [hv] at h; cases h
    | some p =>
      obtain ⟨v, bs1⟩ := p
      simp only [hv] at h
      cases hm : readMulti w n bs1 with
      | none => simp only [hm] at h; cases h
      | some q =>
        obtain ⟨vs', bs2⟩ := q
        simp only [hm] at h
        injection h with h
        injection h with h1 h2
        subst h1; subst h2
        obtain ⟨_, hbs⟩ := readLE_spec w bs v bs1 hv
        obtain ⟨hlen, hbs1⟩ := ih bs1 vs' bs2 hm
        refine ⟨by simp [hlen], ?_⟩
        rw [encodeMulti, List.append_assoc, hbs1, hbs]

theorem char_toNat_ofNat {n : Nat} (h : n.isValidChar) : (Char.ofNat n).toNat = n := by
  rw [Char.ofNat, dif_pos h]
  rfl

theorem utf8Cont2_spec (b0 : Nat) (bs : List Nat) (c : Char) (r : List Nat)
    (hb0a : 194 ≤ b0) (hb0b : b0 < 224)
    (h : utf8Cont2 b0 bs = some (c, r)) : utf8EncodeChar c ++ r = b0 :: bs := by
  cases bs with
  | nil => simp [utf8Cont2] at h
  | cons b1 bs1 =>
    rw [utf8Cont2] at h
    by_cases hc1 : isCont b1 = true
    · rw [if_pos hc1] at h
      injection h with h
      injection h with ha hb
      subst ha
      subst hb
      rw [isCont] at hc1
      simp at hc1
      have hval : ((b0 - 192) * 64 + (b1 - 128)).isValidChar := Or.inl (by omega)
      simp only [utf8EncodeChar, char_toNat_ofNat hval]
      rw [if_neg (by omega), if_pos (by omega)]
      have e1 : 192 + ((b0 - 192) * 64 + (b1 - 128)) / 64 = b0 := by omega
      have e2 : 128 + ((b0 - 192) * 64 + (b1 - 128)) % 64 = b1 := by omega
      rw [e1, e2]
      rfl
    · rw [if_neg hc1] at h
      cases h

theorem utf8Cont3_spec (b0 : Nat) (bs : List Nat) (c : Char) (r : List Nat)
    (hb0a : 224 ≤ b0) (hb0b : b0 < 240)
    (h : utf8Cont3 b0 bs = some (c, r)) : utf8EncodeChar c ++ r = b0 :: bs := by
  cases bs with
  | nil => simp [utf8Cont3] at h
  | cons b1 bs1 =>
    cases bs1 with
    | nil => simp [utf8Cont3] at h
    | cons b2 bs2 =>
      rw [utf8Cont3] at h
      by_cases hcnd : (isCont b1 && isCont b2 &&
          decide (2048 ≤ (b0 - 224) * 4096 + (b1 - 128) * 64 + (b2 - 128)) &&
          (decide ((b0 - 224) * 4096 + (b1 - 128) * 64 + (b2 - 128) < 55296) ||
           decide (57344 ≤ (b0 - 224) * 4096 + (b1 - 128) * 64 + (b2 - 128)))) = true
      · rw [if_pos hcnd] at h
        injection h with h
        injection h with ha hb
        subst ha
        subst hb
        simp only [Bool.and_eq_true, Bool.or_eq_true, decide_eq_true_eq, isCont] at hcnd
        obtain ⟨⟨⟨hb1, hb2⟩, hge⟩, hsur⟩ := hcnd
        have hval : ((b0 - 224) * 4096 + (b1 - 128) * 64 + (b2 - 128)).isValidChar := by
          rcases hsur with hs | hs
          · exact Or.inl (by omega)
          · exact Or.inr ⟨by omega, by omega⟩
        simp only [utf8EncodeChar, char_toNat_ofNat hval]
        rw [if_neg (by omega), if_neg (by omega), if_pos (by omega)]
        have e1 : 224 + ((b0 - 224) * 4096 + (b1 - 128) * 64 + (b2 - 128)) / 4096 = b0 := by
          omega
        have e2 : 128 + ((b0 - 224) * 4096 + (b1 - 128) * 64 + (b2 - 128)) / 64 % 64 = b1 := by
          omega
        have e3 : 128 + ((b0 - 224) * 4096 + (b1 - 128) * 64 + (b2 - 128)) % 64 = b2 := by
          omega
        rw [e1, e2, e3]
        rfl
      · rw [if_neg hcnd] at h
        cases h

theorem utf8Cont4_spec (b0 : Nat) (bs : List Nat) (c : Char) (r : List Nat)
    (hb0a : 240 ≤ b0) (hb0b : b0 < 245)
    (h : utf8Cont4 b0 bs = some (c, r)) : utf8EncodeChar c ++ r = b0 :: bs := by
  cases bs with
  | nil => simp [utf8Cont4] at h
  | cons b1 bs1 =>
    cases bs1 with
    | nil => simp [utf8Cont4] at h
    | cons b2 bs2 =>
      cases bs2 with
      | nil => simp [utf8Cont4] at h
      | cons b3 bs3 =>
        rw [utf8Cont4] at h
        by_cases hcnd : (isCont b1 && isCont b2 && isCont b3 &&
            decide (65536 ≤ (b0 - 240) * 262144 + (b1 - 128) * 4096 + (b2 - 128) * 64 + (b3 - 128)) &&
            decide ((b0 - 240) * 262144 + (b1 - 128) * 4096 + (b2 - 128) * 64 + (b3 - 128) < 1114112)) = true
        · rw [if_pos hcnd] at h
          injection h with h
          injection h with ha hb
          subst ha
          subst hb
          simp only [Bool.and_eq_true, decide_eq_true_eq, isCont] at hcnd
          obtain ⟨⟨⟨⟨hb1, hb2⟩, hb3⟩, hge⟩, hlt⟩ := hcnd
          have hval : ((b0 - 240) * 262144 + (b1 - 128) * 4096 + (b2 - 128) * 64 + (b3 - 128)).isValidChar :=
            Or.inr ⟨by omega, by omega⟩
          simp only [utf8EncodeChar, char_toNat_ofNat hval]
          rw [if_neg (by omega), if_neg (by omega), if_neg (by omega)]
          have e1 : 240 + ((b0 - 240) * 262144 + (b1 - 128) * 4096 + (b2 - 128) * 64 + (b3 - 128)) / 262144 = b0 := by
            omega
          have e2 : 128 + ((b0 - 240) * 262144 + (b1 - 128) * 4096 + (b2 - 128) * 64 + (b3 - 128)) / 4096 % 64 = b1 := by
            omega
          have e3 : 128 + ((b0 - 240) * 262144 + (b1 - 128) * 4096 + (b2 - 128) * 64 + (b3 - 128)) / 64 % 64 = b2 := by
            omega
          have e4 : 128 + ((b0 - 240) * 262144 + (b1 - 128) * 4096 + (b2 - 128) * 64 + (b3 - 128)) % 64 = b3 := by
            omega
          rw [e1, e2, e3, e4]
          rfl
        · rw [if_neg hcnd] at h
          cases h

theorem utf8DecodeChar_spec (bs : List Nat) (c : Char) (r : List Nat)
    (h : utf8DecodeChar bs = some (c, r)) : utf8EncodeChar c ++ r = bs := by
  cases bs with
  | nil => simp [utf8DecodeChar] at h
  | cons b0 rest =>
    rw [utf8DecodeChar] at h
    by_cases h0 : b0 < 128
    · rw [if_pos h0] at h
      injection h with h
      injection h with h1 h2
      subst h1
      subst h2
      have hval : b0.isValidChar := Or.inl (by omega)
      simp only [utf8EncodeChar, char_toNat_ofNat hval]
      rw [if_pos h0]
      rfl
    · rw [if_neg h0] at h
      by_cases h1 : b0 < 194
      · rw [if_pos h1] at h
        cases h
      · rw [if_neg h1] at h
        by_cases h2 : b0 < 224
        · rw [if_pos h2] at h
          exact utf8Cont2_spec b0 rest c r (by omega) h2 h
        · rw [if_neg h2] at h
          by_cases h3 : b0 < 240
          · rw [if_pos h3] at h
            exact utf8Cont3_spec b0 rest c r (by omega) h3 h
          · rw [if_neg h3] at h
            by_cases h4 : b0 < 245
            · rw [if_pos h4] at h
              exact utf8Cont4_spec b0 rest c r (by omega) h4 h
            · rw [if_neg h4] at h
              cases h

theorem utf8DecodeList_spec : ∀ (f : Nat) (bs : List Nat) (cs : List Char),
    utf8DecodeList f bs = some cs → (cs.map utf8EncodeChar).flatten = bs := by
  intro f
  induction f with
  | zero =>
    intro bs cs h
    cases bs with
    | nil =>
      rw [utf8DecodeList] at h
      injection h with h
      subst h
      rfl
    | cons b bs' =>
      simp only [utf8DecodeList] at h
      cases h
  | succ f ih =>
    intro bs cs h
    cases bs with
    | nil =>
      rw [utf8DecodeList] at h
      injection h with h
      subst h
      rfl
    | cons b bs' =>
      simp only [utf8DecodeList] at h
      cases hc : utf8DecodeChar (b :: bs') with
      | none => simp only [hc] at h; cases h
      | some p =>
        obtain ⟨c, rest⟩ := p
        simp only [hc] at h
        cases hl : utf8DecodeList f rest with
        | none => simp only [hl] at h; cases h
        | some cs' =>
          simp only [hl] at h
          injection h with h
          subst h
          rw [List.map_cons, List.flatten_cons, ih rest cs' hl]
          exact utf8DecodeChar_spec _ _ _ hc

theorem utf8Decode_spec (bs : List Nat) (s : String) (h : utf8Decode bs = some s) :
    utf8Encode s = bs := by
  rw [utf8Decode] at h
  cases hl : utf8DecodeList bs.length bs with
  | none => rw [hl] at h; cases h
  | some cs =>
    rw [hl] at h
    injection h with h
    subst h
    rw [utf8Encode]
    exact utf8DecodeList_spec _ _ _ hl

theorem readString_spec (bs : List Nat) (s : String) (r : List Nat)
    (h : readString bs = some (s, r)) : encodeString s ++ r = bs := by
  rw [readString] at h
  cases hl : readLE 2 bs with
  | none => simp only [hl] at h; cases h
  | some p =>
    obtain ⟨len, bs1⟩ := p
    simp only [hl] at h
    cases hb : readBytes len bs1 with
    | none => simp only [hb] at h; cases h
    | some q =>
      obtain ⟨chunk, bs2⟩ := q
      simp only [hb] at h
      cases hu : utf8Decode chunk with
      | none => simp only [hu] at h; cases h
      | some s' =>
        simp only [hu] at h
        injection h with h
        injection h with h1 h2
        subst h1
        subst h2
        obtain ⟨hlen2, hbs⟩ := readLE_spec 2 bs len bs1 hl
        obtain ⟨hclen, hchunk⟩ := readBytes_spec len bs1 chunk bs2 hb
        have henc : utf8Encode s' = chunk := utf8Decode_spec chunk s' hu
        rw [encodeString, henc, hclen, List.append_assoc, hchunk, hbs]

theorem decode_spec (f : Nat) :
    (∀ t bs v r, decodePayload f t bs = some (v, r) →
      tagId v = t ∧ encodePayload v ++ r = bs) ∧
    (∀ t n bs es r, decodeElems f t n bs = some (es, r) →
      es.length = n ∧ encodeElems es ++ r = bs) ∧
    (∀ bs m r, decodeEntries f bs = some (m, r) → encodeEntries m ++ r = bs) := by
  induction f with
  | zero =>
    refine ⟨?_, ?_, ?_⟩
    · intro t bs v r h
      rw [decodePayload] at h
      cases h
    · intro t n bs es r h
      rw [decodeElems] at h
      cases h
    · intro bs m r h
      rw [decodeEntries] at h
      cases h
  | succ f ih =>
    obtain ⟨ihP, ihL, ihE⟩ := ih
    refine ⟨?_, ?_, ?_⟩
    · intro t bs v r h
      rw [decodePayload] at h
      by_cases t1 : t = 1
      · rw [if_pos t1] at h
        cases hb : readByte bs with
        | none => simp only [hb] at h; cases h
        | some p =>
          obtain ⟨b, r1⟩ := p
          simp only [hb] at h
          injection h with h
          injection h with h1 h2
          subst h1
          subst h2
          obtain ⟨hb256, hbs⟩ := readByte_spec bs b r1 hb
          subst t1
          refine ⟨rfl, ?_⟩
          simp only [encodePayload]
          have : b % 256 = b := Nat.mod_eq_of_lt hb256
          rw [this]
          exact hbs
      · rw [if_neg t1] at h
        by_cases t2 : t = 2
        · rw [if_pos t2] at h
          cases hb : readLE 2 bs with
          | none => simp only [hb] at h; cases h
          | some p =>
            obtain ⟨b, r1⟩ := p
            simp only [hb] at h
            injection h with h
            injection h with h1 h2
            subst h1
            subst h2
            obtain ⟨_, hbs⟩ := readLE_spec 2 bs b r1 hb
            subst t2
            exact ⟨rfl, by simp only [encodePayload]; exact hbs⟩
        · rw [if_neg t2] at h
          by_cases t3 : t = 3
          · rw [if_pos t3] at h
            cases hb : readLE 4 bs with
            | none => simp only [hb] at h; cases h
            | some p =>
              obtain ⟨b, r1⟩ := p
              simp only [hb] at h
              injection h with h
              injection h with h1 h2
              subst h1
              subst h2
              obtain ⟨_, hbs⟩ := readLE_spec 4 bs b r1 hb
              subst t3
              exact ⟨rfl, by simp only [encodePayload]; exact hbs⟩
          · rw [if_neg t3] at h
            by_cases t4 : t = 4
            · rw [if_pos t4] at h
              cases hb : readLE 8 bs with
              | none => simp only [hb] at h; cases h
              | some p =>
                obtain ⟨u, r1⟩ := p
                simp only [hb] at h
                injection h with h
                injection h with h1 h2
                subst h1
                subst h2
                obtain ⟨hu, hbs⟩ := readLE_spec 8 bs u r1 hb
                subst t4
                refine ⟨rfl, ?_⟩
                simp only [encodePayload]
                have hpow : (256 : Nat) ^ 8 = 2 ^ 64 := by norm_num
                rw [hpow] at hu
                have hmod : ((if u < 2 ^ 63 then (u : Int) else (u : Int) - 2 ^ 64) %
                    (2 ^ 64 : Int)).toNat = u := by
                  by_cases hlt : u < 2 ^ 63
                  · rw [if_pos hlt]
                    omega
                  · rw [if_neg hlt]
                    omega
                rw [hmod]
                exact hbs
            · rw [if_neg t4] at h
              by_cases t5 : t = 5
              · rw [if_pos t5] at h
                cases hb : readBytes 4 bs with
                | none => simp only [hb] at h; cases h
                | some p =>
                  obtain ⟨raw, r1⟩ := p
                  simp only [hb] at h
                  injection h with h
                  injection h with h1 h2
                  subst h1
                  subst h2
                  obtain ⟨_, hbs⟩ := readBytes_spec 4 bs raw r1 hb
                  subst t5
                  exact ⟨rfl, by simp only [encodePayload]; exact hbs⟩
              · rw [if_neg t5] at h
                by_cases t6 : t = 6
                · rw [if_pos t6] at h
                  cases hb : readBytes 8 bs with
                  | none => simp only [hb] at h; cases h
                  | some p =>
                    obtain ⟨raw, r1⟩ := p
                    simp only [hb] at h
                    injection h with h
                    injection h with h1 h2
                    subst h1
                    subst h2
                    obtain ⟨_, hbs⟩ := readBytes_spec 8 bs raw r1 hb
                    subst t6
                    exact ⟨rfl, by simp only [encodePayload]; exact hbs⟩
                · rw [if_neg t6] at h
                  by_cases t7 : t = 7
                  · rw [if_pos t7] at h
                    cases hn : readLE 4 bs with
                    | none => simp only [hn] at h; cases h
                    | some p =>
                      obtain ⟨n, r1⟩ := p
                      simp only [hn] at h
                      cases hb : readBytes n r1 with
                      | none => simp only [hb] at h; cases h
                      | some q =>
                        obtain ⟨raw, r2⟩ := q
                        simp only [hb] at h
                        injection h with h
                        injection h with h1 h2
                        subst h1
                        subst h2
                        obtain ⟨_, hbs⟩ := readLE_spec 4 bs n r1 hn
                        obtain ⟨hlen, hr1⟩ := readBytes_spec n r1 raw r2 hb
                        subst t7
                        refine ⟨rfl, ?_⟩
                        simp only [encodePayload]
                        rw [hlen, List.append_assoc, hr1, hbs]
                  · rw [if_neg t7] at h
                    by_cases t8 : t = 8
                    · rw [if_pos t8] at h
                      cases hs : readString bs with
                      | none => simp only [hs] at h; cases h
                      | some p =>
                        obtain ⟨s, r1⟩ := p
                        simp only [hs] at h
                        injection h with h
                        injection h with h1 h2
                        subst h1
                        subst h2
                        subst t8
                        exact ⟨rfl, by
                          simp only [encodePayload]
                          exact readString_spec bs s r1 hs⟩
                    · rw [if_neg t8] at h
                      by_cases t9 : t = 9
                      · rw [if_pos t9] at h
                        cases het : readByte bs with
                        | none => simp only [het] at h; cases h
                        | some p =>
                          obtain ⟨et, r1⟩ := p
                          simp only [het] at h
                          cases hn : readLE 4 r1 with
                          | none => simp only [hn] at h; cases h
                          | some q =>
                            obtain ⟨n, r2⟩ := q
                            simp only [hn] at h
                            cases hes : decodeElems f et n r2 with
                            | none => simp only [hes] at h; cases h
                            | some w =>
                              obtain ⟨es, r3⟩ := w
                              simp only [hes] at h
                              injection h with h
                              injection h with h1 h2
                              subst h1
                              subst h2
                              obtain ⟨het256, hbs⟩ := readByte_spec bs et r1 het
                              obtain ⟨_, hr1⟩ := readLE_spec 4 r1 n r2 hn
                              obtain ⟨hlen, hr2⟩ := ihL et n r2 es r3 hes
                              subst t9
                              refine ⟨rfl, ?_⟩
                              simp only [encodePayload]
                              rw [Nat.mod_eq_of_lt het256, hlen, List.cons_append,
                                List.append_assoc, hr2, hr1, hbs]
                      · rw [if_neg t9] at h
                        by_cases t10 : t = 10
                        · rw [if_pos t10] at h
                          cases hm : decodeEntries f bs with
                          | none => simp only [hm] at h; cases h
                          | some p =>
                            obtain ⟨m, r1⟩ := p
                            simp only [hm] at h
                            injection h with h
                            injection h with h1 h2
                            subst h1
                            subst h2
                            subst t10
                            exact ⟨rfl, by
                              simp only [encodePayload]
                              exact ihE bs m r1 hm⟩
                        · rw [if_neg t10] at h
                          by_cases t11 : t = 11
                          · rw [if_pos t11] at h
                            cases hn : readLE 4 bs with
                            | none => simp only [hn] at h; cases h
                            | some p =>
                              obtain ⟨n, r1⟩ := p
                              simp only [hn] at h
                              cases hv : readMulti 4 n r1 with
                              | none => simp only [hv] at h; cases h
                              | some q =>
                                obtain ⟨vs, r2⟩ := q
                                simp only [hv] at h
                                injection h with h
                                injection h with h1 h2
                                subst h1
                                subst h2
                                obtain ⟨_, hbs⟩ := readLE_spec 4 bs n r1 hn
                                obtain ⟨hlen, hr1⟩ := readMulti_spec 4 n r1 vs r2 hv
                                subst t11
                                refine ⟨rfl, ?_⟩
                                simp only [encodePayload]
                                rw [hlen, List.append_assoc, hr1, hbs]
                          · rw [if_neg t11] at h
                            by_cases t12 : t = 12
                            · rw [if_pos t12] at h
                              cases hn : readLE 4 bs with
                              | none => simp only [hn] at h; cases h
                              | some p =>
                                obtain ⟨n, r1⟩ := p
                                simp only [hn] at h
                                cases hv : readMulti 8 n r1 with
                                | none => simp only [hv] at h; cases h
                                | some q =>
                                  obtain ⟨vs, r2⟩ := q
                                  simp only [hv] at h
                                  injection h with h
                                  injection h with h1 h2
                                  subst h1
                                  subst h2
                                  obtain ⟨_, hbs⟩ := readLE_spec 4 bs n r1 hn
                                  obtain ⟨hlen, hr1⟩ := readMulti_spec 8 n r1 vs r2 hv
                                  subst t12
                                  refine ⟨rfl, ?_⟩
                                  simp only [encodePayload]
                                  rw [hlen, List.append_assoc, hr1, hbs]
                            · rw [if_neg t12] at h
                              cases h
    · intro t n bs es r h
      cases n with
      | zero =>
        rw [decodeElems] at h
        injection h with h
        injection h with h1 h2
        subst h1
        subst h2
        exact ⟨rfl, rfl⟩
      | succ n =>
        rw [decodeElems] at h
        cases he : decodePayload f t bs with
        | none => simp only [he] at h; cases h
        | some p =>
          obtain ⟨e, r1⟩ := p
          simp only [he] at h
          cases hes : decodeElems f t n r1 with
          | none => simp only [hes] at h; cases h
          | some q =>
            obtain ⟨es', r2⟩ := q
            simp only [hes] at h
            injection h with h
            injection h with h1 h2
            subst h1
            subst h2
            obtain ⟨_, he1⟩ := ihP t bs e r1 he
            obtain ⟨hlen, he2⟩ := ihL t n r1 es' r2 hes
            refine ⟨by simp [hlen], ?_⟩
            rw [encodeElems, List.append_assoc, he2, he1]
    · intro bs m r h
      rw [decodeEntries] at h
      cases hb : readByte bs with
      | none => simp only [hb] at h; cases h
      | some p =>
        obtain ⟨t, r1⟩ := p
        simp only [hb] at h
        obtain ⟨ht256, hbs⟩ := readByte_spec bs t r1 hb
        by_cases ht : t = 0
        · rw [if_pos ht] at h
          injection h with h
          injection h with h1 h2
          subst h1
          subst h2
          rw [encodeEntries]
          rw [ht] at hbs
          simpa using hbs
        · rw [if_neg ht] at h
          cases hs : readString r1 with
          | none => simp only [hs] at h; cases h
          | some q =>
            obtain ⟨name, r2⟩ := q
            simp only [hs] at h
            cases hv : decodePayload f t r2 with
            | none => simp only [hv] at h; cases h
            | some w =>
              obtain ⟨v, r3⟩ := w
              simp only [hv] at h
              cases hm : decodeEntries f r3 with
              | none => simp only [hm] at h; cases h
              | some z =>
                obtain ⟨m', r4⟩ := z
                simp only [hm] at h
                injection h with h
                injection h with h1 h2
                subst h1
                subst h2
                obtain ⟨htag, hr2⟩ := ihP t r2 v r3 hv
                have hr1 : encodeString name ++ r2 = r1 := readString_spec r1 name r2 hs
                have hr3 : encodeEntries m' ++ r4 = r3 := ihE r3 m' r4 hm
                rw [encodeEntries, htag, Nat.mod_eq_of_lt ht256, List.cons_append,
                  List.append_assoc, List.append_assoc, hr3, hr2, hr1, hbs]

/-- Top-level parse-then-print identity of the codec. -/
theorem decodeNbt_spec (bs : List Nat) (p : String × Tag)
    (h : decodeNbt bs = some p) : encodeNbt p = bs := by
  obtain ⟨name, v⟩ := p
  rw [decodeNbt] at h
  cases hb : readByte bs with
  | none => simp only [hb] at h; cases h
  | some q =>
    obtain ⟨t, r1⟩ := q
    simp only [hb] at h
    cases hs : readString r1 with
    | none => simp only [hs] at h; cases h
    | some w =>
      obtain ⟨name', r2⟩ := w
      simp only [hs] at h
      cases hv : decodePayload (bs.length + 1) t r2 with
      | none => simp only [hv] at h; cases h
      | some z =>
        obtain ⟨v', r3⟩ := z
        simp only [hv] at h
        by_cases hr3 : r3 = []
        · rw [if_pos hr3] at h
          injection h with h
          injection h with h1 h2
          subst h1
          subst h2
          subst hr3
          obtain ⟨ht256, hbs⟩ := readByte_spec bs t r1 hb
          obtain ⟨htag, hr2⟩ := (decode_spec (bs.length + 1)).1 t r2 v' [] hv
          have hr1 : encodeString name' ++ r2 = r1 := readString_spec r1 name' r2 hs
          rw [encodeNbt]
          simp only []
          rw [htag, Nat.mod_eq_of_lt ht256]
          simp at hr2
          rw [hr2, hr1, hbs]
        · rw [if_neg hr3] at h
          cases h

/- ------------------------------------------------------------------ -/
/- Bridges between scores and match predicates                        -/
/- ------------------------------------------------------------------ -/

theorem folderScore_eq_some (relDir key : String) (n : Nat) :
    folderScore relDir key = some n ↔
    (folderKeyMatches key relDir = true ∧ n = (normRel key).length) := by
  rw [folderScore]
  by_cases h : folderKeyMatches key relDir = true
  · rw [if_pos h]
    constructor
    · intro he
      injection he with he
      exact ⟨h, he.symm⟩
    · rintro ⟨_, rfl⟩
      rfl
  · rw [if_neg h]
    constructor
    · intro he
      cases he
    · rintro ⟨hm, _⟩
      exact absurd hm h

theorem folderScore_eq_none (relDir key : String) :
    folderScore relDir key = none ↔ folderKeyMatches key relDir = false := by
  rw [folderScore]
  by_cases h : folderKeyMatches key relDir = true
  · rw [if_pos h]
    simp [h]
  · rw [if_neg h]
    simp [Bool.not_eq_true] at h
    simp [h]

theorem overrideScore_eq_some (stem key : String) (n : Nat) :
    overrideScore stem key = some n ↔
    (overrideKeyMatches key stem = true ∧ n = (jsToLower key).length) := by
  rw [overrideScore]
  by_cases h : overrideKeyMatches key stem = true
  · rw [if_pos h]
    constructor
    · intro he
      injection he with he
      exact ⟨h, he.symm⟩
    · rintro ⟨_, rfl⟩
      rfl
  · rw [if_neg h]
    constructor
    · intro he
      cases he
    · rintro ⟨hm, _⟩
      exact absurd hm h

theorem overrideScore_eq_none (stem key : String) :
    overrideScore stem key = none ↔ overrideKeyMatches key stem = false := by
  rw [overrideScore]
  by_cases h : overrideKeyMatches key stem = true
  · rw [if_pos h]
    simp [h]
  · rw [if_neg h]
    simp [Bool.not_eq_true] at h
    simp [h]

/- ------------------------------------------------------------------ -/
/- Claim theorems                                                     -/
/- ------------------------------------------------------------------ -/

/-- Claim C1, counterexample.  The claim asserts that pickFolderRule
returns a rule only for a key that literally equals the directory portion
of the path or is a literal prefix of it followed by a slash.  The code
first normalizes the key, so the key "village/" (with a trailing slash)
selects its rule for the file "village/house.mcstructure" although the
directory "village" neither equals that key nor starts with it followed
by a slash; under the claim as stated no key matches and the result
would have to be none. -/
theorem pickFolderRule_literal_counterexample :
    pickFolderRule ⟨none, [("village/", ⟨none, none, none, none⟩)], none, none, none⟩
      "village/house.mcstructure" = some ⟨none, none, none, none⟩ ∧
    normRel (dirname "village/house.mcstructure") = "village" ∧
    ¬ ("village" = "village/" ∨ strStarts ("village/" ++ "/") "village" = true) := by
  refine ⟨by decide, by decide, by decide⟩

/-- Claim C1, amended: for every configuration and project-relative file
path, pickFolderRule returns the rule of a longest key whose NORMALIZED
form (backslashes turned into slashes, leading and trailing slashes
stripped, a leading dot-slash dropped, empty results never matching) is a
full-segment prefix of the normalized directory portion of the path (the
directory equals it, or starts with it followed by a slash), and returns
none when no key matches; in particular key "village" never matches
directory "village2". -/
theorem pickFolderRule_longest_match (config : Config) (rel : String) :
    (pickFolderRule config rel = none ↔
      ∀ p ∈ config.folders, folderKeyMatches p.1 (normRel (dirname rel)) = false) ∧
    (∀ r, pickFolderRule config rel = some r →
      ∃ p, p ∈ config.folders ∧ folderKeyMatches p.1 (normRel (dirname rel)) = true ∧
        r = p.2 ∧
        ∀ q ∈ config.folders, folderKeyMatches q.1 (normRel (dirname rel)) = true →
          (normRel q.1).length ≤ (normRel p.1).length) ∧
    folderKeyMatches "village" "village2" = false := by
  refine ⟨?_, ?_, by decide⟩
  · cases hsb : selectBest (folderScore (normRel (dirname rel))) config.folders none with
    | none =>
      simp only [pickFolderRule, hsb]
      constructor
      · intro _ p hp
        have hall := ((selectBest_eq_none _ config.folders none).mp hsb).2 p hp
        exact (folderScore_eq_none _ _).mp hall
      · intro _
        trivial
    | some b =>
      simp only [pickFolderRule, hsb]
      constructor
      · intro hc
        cases hc
      · intro hall
        exfalso
        obtain ⟨n, k, v⟩ := b
        obtain ⟨h1, _, _⟩ := selectBest_spec _ config.folders none n k v hsb
        rcases h1 with h1 | h1
        · cases h1
        · have hm := ((folderScore_eq_some _ _ _).mp h1.2).1
          rw [hall (k, v) h1.1] at hm
          cases hm
  · intro r hr
    simp only [pickFolderRule] at hr
    cases hsb : selectBest (folderScore (normRel (dirname rel))) config.folders none with
    | none =>
      rw [hsb] at hr
      cases hr
    | some b =>
      obtain ⟨n, k, v⟩ := b
      rw [hsb] at hr
      injection hr with hr
      obtain ⟨h1, _, h3⟩ := selectBest_spec _ config.folders none n k v hsb
      rcases h1 with h1 | h1
      · cases h1
      · obtain ⟨hm, hn⟩ := (folderScore_eq_some _ _ _).mp h1.2
        refine ⟨(k, v), h1.1, hm, hr.symm, ?_⟩
        intro q hq hqm
        have := h3 q hq (normRel q.1).length
          ((folderScore_eq_some _ _ _).mpr ⟨hqm, rfl⟩)
        rw [hn] at this
        exact this

/-- Claim C1 witness: a concrete configuration in which no folder key
matches the directory of the file, so resolution returns none. -/
theorem pickFolderRule_longest_match_witness :
    pickFolderRule ⟨none, [("x", ⟨none, none, none, none⟩)], none, none, none⟩
      "y/z.mcstructure" = none :=
  (pickFolderRule_longest_match
    ⟨none, [("x", ⟨none, none, none, none⟩)], none, none, none⟩
    "y/z.mcstructure").1.mpr (by decide)

/-- Claim C2: for every override key set and every filename, the
lower-cased stem (with a final .mcstructure extension stripped) matches an
override key exactly when the stem equals the lower-cased key or starts
with it followed by an underscore, pickStructureOverride returns the
override keyed by a longest matching key (none when no key matches), and
in particular key "arm" never matches stem "armorer_1". -/
theorem pickStructureOverride_longest_match (fr : FolderRule)
    (ovs : List (String × List (String × String))) (file : String)
    (hov : fr.structure_overrides = some ovs) :
    (pickStructureOverride (some fr) (getStructureBaseName file) = none ↔
      ∀ p ∈ ovs, overrideKeyMatches p.1 (getStructureBaseName file) = false) ∧
    (∀ r, pickStructureOverride (some fr) (getStructureBaseName file) = some r →
      ∃ p, p ∈ ovs ∧ overrideKeyMatches p.1 (getStructureBaseName file) = true ∧
        r = p.2 ∧
        ∀ q ∈ ovs, overrideKeyMatches q.1 (getStructureBaseName file) = true →
          (jsToLower q.1).length ≤ (jsToLower p.1).length) ∧
    overrideKeyMatches "arm" "armorer_1" = false := by
  refine ⟨?_, ?_, by decide⟩
  · cases hsb : selectBest (overrideScore (getStructureBaseName file)) ovs none with
    | none =>
      simp only [pickStructureOverride, hov, hsb]
      constructor
      · intro _ p hp
        have hall := ((selectBest_eq_none _ ovs none).mp hsb).2 p hp
        exact (overrideScore_eq_none _ _).mp hall
      · intro _
        trivial
    | some b =>
      simp only [pickStructureOverride, hov, hsb]
      constructor
      · intro hc
        cases hc
      · intro hall
        exfalso
        obtain ⟨n, k, v⟩ := b
        obtain ⟨h1, _, _⟩ := selectBest_spec _ ovs none n k v hsb
        rcases h1 with h1 | h1
        · cases h1
        · have hm := ((overrideScore_eq_some _ _ _).mp h1.2).1
          rw [hall (k, v) h1.1] at hm
          cases hm
  · intro r hr
    simp only [pickStructureOverride, hov] at hr
    cases hsb : selectBest (overrideScore (getStructureBaseName file)) ovs none with
    | none =>
      rw [hsb] at hr
      cases hr
    | some b =>
      obtain ⟨n, k, v⟩ := b
      rw [hsb] at hr
      injection hr with hr
      obtain ⟨h1, _, h3⟩ := selectBest_spec _ ovs none n k v hsb
      rcases h1 with h1 | h1
      · cases h1
      · obtain ⟨hm, hn⟩ := (overrideScore_eq_some _ _ _).mp h1.2
        refine ⟨(k, v), h1.1, hm, hr.symm, ?_⟩
        intro q hq hqm
        have := h3 q hq (jsToLower q.1).length
          ((overrideScore_eq_some _ _ _).mpr ⟨hqm, rfl⟩)
        rw [hn] at this
        exact this

/-- Claim C2 witness: the stem arm (from x/arm.mcstructure) does not match
the override key armorer, so no override is picked. -/
theorem pickStructureOverride_longest_match_witness :
    pickStructureOverride (some ⟨none, none, none, some [("armorer", [("Chest", "B.json")])]⟩)
      (getStructureBaseName "x/arm.mcstructure") = none :=
  (pickStructureOverride_longest_match
    ⟨none, none, none, some [("armorer", [("Chest", "B.json")])]⟩
    [("armorer", [("Chest", "B.json")])] "x/arm.mcstructure" rfl).1.mpr (by decide)

theorem objGet_buildPerFileTileConfig (config : Config) (folderRule : Option FolderRule)
    (filePath : String)
    (hg : ((scopeTileMap config.global).map Prod.fst).Nodup)
    (hf : ((folderTileMap folderRule).map Prod.fst).Nodup)
    (hd : ∀ fr d, folderRule = some fr → fr.structure_defaults = some d →
      (d.map Prod.fst).Nodup)
    (ho : ∀ m, pickStructureOverride folderRule (getStructureBaseName filePath) = some m →
      (m.map Prod.fst).Nodup)
    (t : String) :
    objGet (buildPerFileTileConfig config folderRule filePath) t =
      overlayLookup config folderRule filePath t := by
  have hbase : objGet (assignAll ([] : List (String × TileRule))
      (scopeTileMap config.global)) t = objGet (scopeTileMap config.global) t := by
    rw [objGet_assignAll _ _ _ hg]
    exact orO_none_right _
  have h2 : objGet (assignAll (assignAll [] (scopeTileMap config.global))
      (folderTileMap folderRule)) t =
      orO (objGet (folderTileMap folderRule) t) (objGet (scopeTileMap config.global) t) := by
    rw [objGet_assignAll _ _ _ hf, hbase]
  cases hfr : folderRule with
  | none =>
    simp only [buildPerFileTileConfig, overlayLookup, pickStructureOverride, orO]
    rw [hfr] at h2
    exact h2
  | some fr =>
    cases hdef : fr.structure_defaults with
    | none =>
      cases hpo : pickStructureOverride (some fr) (getStructureBaseName filePath) with
      | none =>
        simp only [buildPerFileTileConfig, overlayLookup, hdef, hpo, orO]
        rw [hfr] at h2
        exact h2
      | some m =>
        have h4 := objGet_assignWrapped m
          (assignAll (assignAll [] (scopeTileMap config.global)) (folderTileMap (some fr))) t
          (by rw [hfr] at ho; exact ho m hpo)
        simp only [buildPerFileTileConfig, overlayLookup, hdef, hpo, orO]
        rw [h4]
        rw [hfr] at h2
        rw [h2]
        simp only [orO]
    | some d =>
      have h3 := objGet_assignWrapped d
        (assignAll (assignAll [] (scopeTileMap config.global)) (folderTileMap (some fr))) t
        (hd fr d (by rw [hfr]) hdef)
      cases hpo : pickStructureOverride (some fr) (getStructureBaseName filePath) with
      | none =>
        simp only [buildPerFileTileConfig, overlayLookup, hdef, hpo, orO]
        rw [h3]
        rw [hfr] at h2
        rw [h2]
        simp only [orO]
      | some m =>
        have h4 := objGet_assignWrapped m
          (assignWrapped (assignAll (assignAll [] (scopeTileMap config.global))
            (folderTileMap (some fr))) d) t
          (by rw [hfr] at ho; exact ho m hpo)
        simp only [buildPerFileTileConfig, overlayLookup, hdef, hpo, orO]
        rw [h4, h3]
        rw [hfr] at h2
        rw [h2]
        simp only [orO]

/-- Claim C3: for every configuration, matched folder rule and file, the
composited per-file map gives, per tile type, exactly the overlay of the
four layers in priority order (matched override and structure_defaults
entries wrapped as loot-table-only rules, with falsy loot paths not
counting as paths), and when the composited map is empty, the effective
map of processFile is instead exactly the legacy tile map at the
configuration root.  Stated for configurations whose layers carry
JavaScript objects, that is, maps with no duplicate keys. -/
theorem buildPerFileTileConfig_overlay (config : Config) (folderRule : Option FolderRule)
    (filePath : String)
    (hg : ((scopeTileMap config.global).map Prod.fst).Nodup)
    (hf : ((folderTileMap folderRule).map Prod.fst).Nodup)
    (hd : ∀ fr d, folderRule = some fr → fr.structure_defaults = some d →
      (d.map Prod.fst).Nodup)
    (ho : ∀ m, pickStructureOverride folderRule (getStructureBaseName filePath) = some m →
      (m.map Prod.fst).Nodup)
    (hl : ((getTileMap config.tile_entities config.containers).map Prod.fst).Nodup) :
    (∀ t, objGet (buildPerFileTileConfig config folderRule filePath) t =
      overlayLookup config folderRule filePath t) ∧
    (buildPerFileTileConfig config folderRule filePath = [] →
      effectiveTileConfig config folderRule filePath =
        getTileMap config.tile_entities config.containers) ∧
    (buildPerFileTileConfig config folderRule filePath ≠ [] →
      effectiveTileConfig config folderRule filePath =
        buildPerFileTileConfig config folderRule filePath) := by
  refine ⟨fun t => objGet_buildPerFileTileConfig config folderRule filePath hg hf hd ho t,
    ?_, ?_⟩
  · intro hempty
    by_cases hleg : getTileMap config.tile_entities config.containers = []
    · simp only [effectiveTileConfig]
      rw [if_neg (fun hc => hc.2 hleg), hempty, hleg]
    · simp only [effectiveTileConfig]
      rw [if_pos ⟨hempty, hleg⟩, hempty]
      rw [assignAll_disjoint _ _ hl (by intro k _; simp)]
      rfl
  · intro hne
    simp only [effectiveTileConfig]
    rw [if_neg (fun hc => hne hc.1)]

/-- Claim C3 witness: a concrete configuration exercising all four layers
for an armorer structure file, evaluated through the overlay equality. -/
theorem buildPerFileTileConfig_overlay_witness :
    objGet
      (buildPerFileTileConfig
        ⟨some ⟨some [("DecoratedPot", ⟨some "g.json", none⟩)], none⟩, [], none, none, none⟩
        (some ⟨some [("Chest", ⟨some "f.json", some 3⟩)], none,
               some [("Chest", "A.json"), ("Barrel", "A.json")],
               some [("armorer", [("Chest", "B.json")])]⟩)
        "village/plains/armorer_2.mcstructure") "Chest" =
      overlayLookup
        ⟨some ⟨some [("DecoratedPot", ⟨some "g.json", none⟩)], none⟩, [], none, none, none⟩
        (some ⟨some [("Chest", ⟨some "f.json", some 3⟩)], none,
               some [("Chest", "A.json"), ("Barrel", "A.json")],
               some [("armorer", [("Chest", "B.json")])]⟩)
        "village/plains/armorer_2.mcstructure" "Chest" :=
  (buildPerFileTileConfig_overlay _ _ _ (by decide) (by decide)
    (by
      intro fr d hfr hdef
      injection hfr with hfr
      subst hfr
      injection hdef with hdef
      subst hdef
      decide)
    (by
      intro m hm
      rw [(by decide : pickStructureOverride
        (some ⟨some [("Chest", ⟨some "f.json", some 3⟩)], none,
               some [("Chest", "A.json"), ("Barrel", "A.json")],
               some [("armorer", [("Chest", "B.json")])]⟩)
        (getStructureBaseName "village/plains/armorer_2.mcstructure") =
        some [("Chest", "B.json")])] at hm
      injection hm with hm
      subst hm
      decide)
    (by decide)).1 "Chest"

theorem writeAllowed_iff (o : MutOpts) (bed : List (String × Tag)) :
    writeAllowed o bed = true ↔
    (if o.onlyUnassigned = true then hasLootAlready bed = false
     else (hasLootAlready bed = false ∨ o.overrideExisting = true)) := by
  rw [writeAllowed]
  cases ho : o.onlyUnassigned with
  | true => cases hasLootAlready bed <;> simp
  | false => cases hasLootAlready bed <;> cases o.overrideExisting <;> simp

/-- Claim C4: for every block-entity compound matched by a rule carrying a
non-falsy loot path, with already-assigned meaning the existing LootTable
string is non-empty after trimming, the record is written (count one)
exactly when: under onlyUnassigned, it is not already assigned (never
overwritten, whatever override_existing says); otherwise, it is not
already assigned or override_existing is set.  A record that is not
written is left unchanged. -/
theorem mutateBed_overwrite_policy (tc : List (String × TileRule)) (o : MutOpts)
    (bed : List (String × Tag)) (tileId : String) (rule : TileRule) (lt : String)
    (hid : objGet bed "id" = some (Tag.string tileId))
    (hr : objGet tc tileId = some rule)
    (hl : rule.loot_table = some lt) (hne : lt ≠ "") :
    ((mutateBed tc o bed).2 = 1 ↔
      (if o.onlyUnassigned = true then hasLootAlready bed = false
       else (hasLootAlready bed = false ∨ o.overrideExisting = true))) ∧
    ((mutateBed tc o bed).2 = 0 → (mutateBed tc o bed).1 = bed) := by
  have hcases : mutateBed tc o bed =
      (if writeAllowed o bed then (applyLoot bed lt (resolveSeed rule o), 1)
       else (bed, 0)) := by
    simp only [mutateBed, hid, hr, hl, if_neg hne]
  constructor
  · rw [hcases]
    by_cases hw : writeAllowed o bed = true
    · rw [if_pos hw]
      exact ⟨fun _ => (writeAllowed_iff o bed).mp hw, fun _ => rfl⟩
    · rw [if_neg hw]
      constructor
      · intro hc
        exact absurd hc (by simp)
      · intro hrhs
        exact absurd ((writeAllowed_iff o bed).mpr hrhs) hw
  · intro h0
    rw [hcases] at h0 ⊢
    by_cases hw : writeAllowed o bed = true
    · rw [if_pos hw] at h0
      simp at h0
    · rw [if_neg hw]

/-- Claim C4 witness: a record with an existing loot table is rewritten
when onlyUnassigned is off and override_existing is on. -/
theorem mutateBed_overwrite_policy_witness :
    (mutateBed [("Chest", ⟨some "x.json", none⟩)] ⟨false, true, none⟩
      [("id", Tag.string "Chest"), ("LootTable", Tag.string "old.json")]).2 = 1 :=
  (mutateBed_overwrite_policy [("Chest", ⟨some "x.json", none⟩)] ⟨false, true, none⟩
    [("id", Tag.string "Chest"), ("LootTable", Tag.string "old.json")]
    "Chest" ⟨some "x.json", none⟩ "x.json" rfl rfl rfl (by decide)).1.mpr (by decide)

/-- Claim C5: on every eligible write, the resolved seed is the explicit
per-tile seed when set (zero included, distinct from absent), else the
configuration default seed; when a seed resolves, LootTableSeed is written
as a long leaf with that value, and when none resolves, no LootTableSeed
leaf remains on the record. -/
theorem mutateBed_seed_resolution (tc : List (String × TileRule)) (o : MutOpts)
    (bed : List (String × Tag)) (tileId : String) (rule : TileRule) (lt : String)
    (hid : objGet bed "id" = some (Tag.string tileId))
    (hr : objGet tc tileId = some rule)
    (hl : rule.loot_table = some lt) (hne : lt ≠ "")
    (hw : writeAllowed o bed = true) :
    (∀ s, rule.seed = some s → resolveSeed rule o = some s) ∧
    (rule.seed = none → resolveSeed rule o = o.defaultSeed) ∧
    (∀ s, resolveSeed rule o = some s →
      objGet (mutateBed tc o bed).1 "LootTableSeed" = some (Tag.long s)) ∧
    (resolveSeed rule o = none →
      objGet (mutateBed tc o bed).1 "LootTableSeed" = none) := by
  have hcases : (mutateBed tc o bed).1 = applyLoot bed lt (resolveSeed rule o) := by
    simp only [mutateBed, hid, hr, hl, if_neg hne, if_pos hw]
  refine ⟨?_, ?_, ?_, ?_⟩
  · intro s hs
    rw [resolveSeed, hs]
  · intro hs
    rw [resolveSeed, hs]
  · intro s hs
    rw [hcases, hs]
    simp only [applyLoot]
    exact objGet_objAssign_self _ _ _
  · intro hs
    rw [hcases, hs]
    simp only [applyLoot]
    exact objGet_objDelete_self _ _

/-- Claim C5 witness: an explicit per-tile seed of zero overrides a
configuration default of seven and is written as a long zero leaf. -/
theorem mutateBed_seed_resolution_witness :
    objGet (mutateBed [("Chest", ⟨some "x.json", some 0⟩)] ⟨true, false, some 7⟩
      [("id", Tag.string "Chest")]).1 "LootTableSeed" = some (Tag.long 0) :=
  (mutateBed_seed_resolution [("Chest", ⟨some "x.json", some 0⟩)] ⟨true, false, some 7⟩
    [("id", Tag.string "Chest")] "Chest" ⟨some "x.json", some 0⟩ "x.json"
    rfl rfl rfl (by decide) rfl).2.2.1 0 rfl

theorem mutatePosEntry_not_compound (tc : List (String × TileRule)) (o : MutOpts)
    (pe : Tag) (h : ∀ m, pe ≠ Tag.compound m) :
    mutatePosEntry tc o pe = (pe, 0) := by
  cases pe
  case compound m => exact absurd rfl (h m)
  all_goals simp only [mutatePosEntry]

theorem mutatePosEntry_no_bed (tc : List (String × TileRule)) (o : MutOpts)
    (m : List (String × Tag)) (hbed : getCompound m "block_entity_data" = none) :
    mutatePosEntry tc o (Tag.compound m) = (Tag.compound m, 0) := by
  cases hb : objGet m "block_entity_data" with
  | none => simp only [mutatePosEntry, hb]
  | some t =>
    cases t
    case compound bed =>
      rw [getCompound, hb] at hbed
      cases hbed
    all_goals simp only [mutatePosEntry, hb]

theorem mutatePosEntry_bed (tc : List (String × TileRule)) (o : MutOpts)
    (m bed : List (String × Tag))
    (hbed : objGet m "block_entity_data" = some (Tag.compound bed)) :
    mutatePosEntry tc o (Tag.compound m) =
      (Tag.compound (objAssign m "block_entity_data"
        (Tag.compound (mutateBed tc o bed).1)), (mutateBed tc o bed).2) := by
  simp only [mutatePosEntry, hbed]

theorem mutatePosEntry_second_zero (tc : List (String × TileRule)) (o1 o2 : MutOpts)
    (pe : Tag)
    (hlt : ∀ p ∈ tc, ∀ lt, p.2.loot_table = some lt → lt ≠ "" → jsTrim lt ≠ "")
    (h2 : o2.onlyUnassigned = true) :
    (mutatePosEntry tc o2 (mutatePosEntry tc o1 pe).1).2 = 0 := by
  cases pe
  case compound m =>
    cases hb : objGet m "block_entity_data" with
    | none =>
      rw [mutatePosEntry_no_bed tc o1 m (by rw [getCompound, hb])]
      rw [mutatePosEntry_no_bed tc o2 m (by rw [getCompound, hb])]
    | some t =>
      cases t
      case compound bed =>
        rw [mutatePosEntry_bed tc o1 m bed hb]
        rw [mutatePosEntry_bed tc o2 _ (mutateBed tc o1 bed).1
          (objGet_objAssign_self m "block_entity_data" _)]
        exact mutateBed_second_zero tc o1 o2 bed hlt h2
      all_goals
        rw [mutatePosEntry_no_bed tc o1 m (by rw [getCompound, hb])]
        rw [mutatePosEntry_no_bed tc o2 m (by rw [getCompound, hb])]
  all_goals
    rw [mutatePosEntry_not_compound tc o1 _ (by intro m hm; cases hm)]
    rw [mutatePosEntry_not_compound tc o2 _ (by intro m hm; cases hm)]

/-- Claim C7, counterexample.  The claim asserts that a second run of the
mutation engine with onlyUnassigned on the output of a first run always
counts zero mutations.  With the rule map sending Chest to the loot path
consisting of one space, the first run writes that path and counts one
mutation, yet the written value trims to the empty string, so the second
run still sees the record as unassigned and writes it again: the second
run counts one, not zero. -/
theorem processRecords_idempotence_counterexample :
    (processRecords [("Chest", ⟨some " ", none⟩)] ⟨true, false, none⟩
      (processRecords [("Chest", ⟨some " ", none⟩)] ⟨true, false, none⟩
        [("0", Tag.compound [("block_entity_data",
          Tag.compound [("id", Tag.string "Chest")])])]).1).2 = 1 := rfl

/-- Claim C7, amended: for every rule map all of whose loot paths are
non-blank (non-empty after trimming), every pair of option sets whose
second has onlyUnassigned set, and every decoded block_position_data
compound, running the mutation engine a second time on the output of a
first run yields a second-run mutation count of zero. -/
theorem processRecords_idempotent (tc : List (String × TileRule)) (o1 o2 : MutOpts)
    (bpd : List (String × Tag))
    (hlt : ∀ p ∈ tc, ∀ lt, p.2.loot_table = some lt → lt ≠ "" → jsTrim lt ≠ "")
    (h2 : o2.onlyUnassigned = true) :
    (processRecords tc o2 (processRecords tc o1 bpd).1).2 = 0 := by
  induction bpd with
  | nil => rfl
  | cons p rest ih =>
    obtain ⟨ik, pe⟩ := p
    simp only [processRecords]
    rw [mutatePosEntry_second_zero tc o1 o2 pe hlt h2, ih]

/-- Claim C7 witness: with a non-blank loot path the second onlyUnassigned
run mutates nothing. -/
theorem processRecords_idempotent_witness :
    (processRecords [("Chest", ⟨some "x.json", none⟩)] ⟨true, false, none⟩
      (processRecords [("Chest", ⟨some "x.json", none⟩)] ⟨true, false, none⟩
        [("0", Tag.compound [("block_entity_data",
          Tag.compound [("id", Tag.string "Chest")])])]).1).2 = 0 :=
  processRecords_idempotent [("Chest", ⟨some "x.json", none⟩)]
    ⟨true, false, none⟩ ⟨true, false, none⟩
    [("0", Tag.compound [("block_entity_data",
      Tag.compound [("id", Tag.string "Chest")])])]
    (by
      intro p hp lt hl hne
      rcases List.mem_singleton.mp hp with rfl
      injection hl with hl
      subst hl
      decide)
    rfl

/-- Field of the block-entity record inside one block_position_data entry. -/
def recordField (pe : Tag) (k : String) : Option Tag :=
  match pe with
  | Tag.compound m =>
    match objGet m "block_entity_data" with
    | some (Tag.compound bed) => objGet bed k
    | _ => none
  | _ => none

theorem mutatePosEntry_frame (tc : List (String × TileRule)) (o : MutOpts)
    (pe : Tag) (k : String) (h1 : k ≠ "LootTable") (h2 : k ≠ "LootTableSeed") :
    recordField (mutatePosEntry tc o pe).1 k = recordField pe k := by
  cases pe
  case compound m =>
    cases hb : objGet m "block_entity_data" with
    | none =>
      rw [mutatePosEntry_no_bed tc o m (by rw [getCompound, hb])]
    | some t =>
      cases t
      case compound bed =>
        rw [mutatePosEntry_bed tc o m bed hb]
        simp only [recordField, hb,
          objGet_objAssign_self m "block_entity_data" _]
        exact mutateBed_frame tc o bed k h1 h2
      all_goals rw [mutatePosEntry_no_bed tc o m (by rw [getCompound, hb])]
  all_goals rw [mutatePosEntry_not_compound tc o _ (by intro m hm; cases hm)]

/-- Claim C9: the mutation engine carries every block_position_data entry
to an entry with the same index key, and every field of the block-entity
record other than LootTable and LootTableSeed, including arbitrary nested
data below it, is unchanged; the encoder then serializes the unchanged
fields to identical bytes since it is a function of the tree. -/
theorem processRecords_frame (tc : List (String × TileRule)) (o : MutOpts)
    (bpd : List (String × Tag)) :
    List.Forall₂ (fun a b : String × Tag => a.1 = b.1 ∧
      ∀ k, k ≠ "LootTable" → k ≠ "LootTableSeed" →
        recordField b.2 k = recordField a.2 k)
      bpd (processRecords tc o bpd).1 := by
  induction bpd with
  | nil => exact List.Forall₂.nil
  | cons p rest ih =>
    obtain ⟨ik, pe⟩ := p
    simp only [processRecords]
    exact List.Forall₂.cons
      ⟨rfl, fun k h1 h2 => mutatePosEntry_frame tc o pe k h1 h2⟩ ih

/-- Claim C9 witness: on a concrete record carrying an extra field, that
field is untouched by a run that writes the loot table. -/
theorem processRecords_frame_witness :
    List.Forall₂ (fun a b : String × Tag => a.1 = b.1 ∧
      ∀ k, k ≠ "LootTable" → k ≠ "LootTableSeed" →
        recordField b.2 k = recordField a.2 k)
      [("0", Tag.compound [("block_entity_data",
        Tag.compound [("id", Tag.string "Chest"), ("Items", Tag.list 10 [])])])]
      (processRecords [("Chest", ⟨some "x.json", none⟩)] ⟨false, false, none⟩
        [("0", Tag.compound [("block_entity_data",
          Tag.compound [("id", Tag.string "Chest"), ("Items", Tag.list 10 [])])])]).1 :=
  processRecords_frame [("Chest", ⟨some "x.json", none⟩)] ⟨false, false, none⟩
    [("0", Tag.compound [("block_entity_data",
      Tag.compound [("id", Tag.string "Chest"), ("Items", Tag.list 10 [])])])]

/-- Claim C10: the mutation engine leaves a block_position_data entry
unchanged, with no mutation counted and no failure, when the entry value
is not a compound, when it has no block_entity_data compound, or when its
block_entity_data has no string id field. -/
theorem mutatePosEntry_malformed_tolerance (tc : List (String × TileRule)) (o : MutOpts) :
    (∀ pe, (∀ m, pe ≠ Tag.compound m) → mutatePosEntry tc o pe = (pe, 0)) ∧
    (∀ m, getCompound m "block_entity_data" = none →
      mutatePosEntry tc o (Tag.compound m) = (Tag.compound m, 0)) ∧
    (∀ m bed, objGet m "block_entity_data" = some (Tag.compound bed) →
      (∀ s, objGet bed "id" ≠ some (Tag.string s)) →
      mutatePosEntry tc o (Tag.compound m) = (Tag.compound m, 0)) := by
  refine ⟨mutatePosEntry_not_compound tc o, mutatePosEntry_no_bed tc o, ?_⟩
  intro m bed hbed hid
  rw [mutatePosEntry_bed tc o m bed hbed]
  have hskip : mutateBed tc o bed = (bed, 0) := by
    rcases mutateBed_cases tc o bed with hc | ⟨tileId, _, _, hidc, _, _, _, _, _⟩
    · exact hc
    · exact absurd hidc (hid tileId)
  rw [hskip]
  rw [objAssign_eq_self m "block_entity_data" (Tag.compound bed) hbed]

/-- Claim C10 witness: an entry whose block_entity_data lacks a string id
is left unchanged with no mutation counted. -/
theorem mutatePosEntry_malformed_tolerance_witness :
    mutatePosEntry [("Chest", ⟨some "x.json", none⟩)] ⟨false, false, none⟩
      (Tag.compound [("block_entity_data", Tag.compound [("x", Tag.byte 1)])]) =
    (Tag.compound [("block_entity_data", Tag.compound [("x", Tag.byte 1)])], 0) :=
  (mutatePosEntry_malformed_tolerance [("Chest", ⟨some "x.json", none⟩)]
    ⟨false, false, none⟩).2.2 [("block_entity_data", Tag.compound [("x", Tag.byte 1)])]
    [("x", Tag.byte 1)] rfl
    (by
      intro s hs
      rw [(rfl : objGet [("x", Tag.byte 1)] "id" = none)] at hs
      cases hs)

/-- Claim C8: a decoded file whose root lacks a structure compound, a
palette compound below it, or a default compound below that, is skipped
with mutation count zero (the skip flag is returned to the caller, which
logs and continues the run); a present chain whose default compound has
no block_position_data entry is not an error: an empty compound is
synthesized in its place and processing proceeds without skipping. -/
theorem processStructure_skip_and_synthesis (config : Config) (rel file : String)
    (onlyUA : Bool) (rootVal : List (String × Tag)) :
    (getCompound rootVal "structure" = none →
      processStructure config rel file onlyUA rootVal = (rootVal, 0, true)) ∧
    (∀ sv, getCompound rootVal "structure" = some sv →
      getCompound sv "palette" = none →
      processStructure config rel file onlyUA rootVal = (rootVal, 0, true)) ∧
    (∀ sv pv, getCompound rootVal "structure" = some sv →
      getCompound sv "palette" = some pv →
      getCompound pv "default" = none →
      processStructure config rel file onlyUA rootVal = (rootVal, 0, true)) ∧
    (∀ sv pv dv, getCompound rootVal "structure" = some sv →
      getCompound sv "palette" = some pv →
      getCompound pv "default" = some dv →
      objGet dv "block_position_data" = none →
      processStructure config rel file onlyUA rootVal =
        (rebuild rootVal sv pv dv [], 0, false)) := by
  refine ⟨?_, ?_, ?_, ?_⟩
  · intro h1
    simp only [processStructure, h1]
  · intro sv h1 h2
    simp only [processStructure, h1, h2]
  · intro sv pv h1 h2 h3
    simp only [processStructure, h1, h2, h3]
  · intro sv pv dv h1 h2 h3 h4
    simp only [processStructure, h1, h2, h3, h4, processRecords]

/-- Claim C8 witness: an empty root compound lacks the structure container
and is skipped with count zero. -/
theorem processStructure_skip_and_synthesis_witness :
    processStructure ⟨none, [], none, none, none⟩ "" "" true [] = ([], 0, true) :=
  (processStructure_skip_and_synthesis ⟨none, [], none, none, none⟩ "" "" true []).1 rfl

/-- Claim C6 (codec modelled from the spec, sections 4.3 and 6; the
implementation delegates to the prismarine-nbt dependency whose call
sites alone appear in the source): for every byte sequence accepted by
the decoder, encoding the unmodified decoded tree reproduces the original
bytes exactly, and therefore decoding, encoding and decoding again yields
the same tree as decoding once. -/
theorem decodeNbt_roundTrip (bs : List Nat) (p : String × Tag)
    (h : decodeNbt bs = some p) :
    encodeNbt p = bs ∧ decodeNbt (encodeNbt p) = decodeNbt bs := by
  have he := decodeNbt_spec bs p h
  exact ⟨he, by rw [he]⟩

/-- Claim C6 witness: the four-byte file holding an empty root compound
decodes, re-encodes to the same bytes, and round-trips. -/
theorem decodeNbt_roundTrip_witness :
    encodeNbt ("", Tag.compound []) = [10, 0, 0, 0] ∧
    decodeNbt (encodeNbt ("", Tag.compound [])) = decodeNbt [10, 0, 0, 0] :=
  decodeNbt_roundTrip [10, 0, 0, 0] ("", Tag.compound []) rfl

